import Mathlib

/-!
kubeschema: schema-URL derivation and multi-document validation.

A shallow embedding of `pkg/validator/validator.go`.

* Go strings are lists of characters (`Str`), byte buffers are lists of bytes (`Bytes`).
* The two package-level variables `Version` and `SchemaLocation` are the record `Globals`,
  threaded through every function that reads or writes them.
* A Go runtime panic (failed type assertion, index out of range) is the `error` side of
  `Except Panic`; a Go `error` return value is an `Option GoError` (`none` is `nil`).
* Library calls whose behaviour is not part of the repository are parameters:
  `strings.ToLower`, `viper.GetString("schema_location")`, `runtime.GOOS`,
  `yaml.Unmarshal` and `gojsonschema.Validate`.
-/

set_option autoImplicit false

namespace Kubeschema

/-! ## Strings, bytes and splitting -/

/-- A Go `string`. -/
abbrev Str := List Char

/-- A Go `[]byte`. -/
abbrev Bytes := List UInt8

/-- The ASCII bytes of a string literal. -/
def bytesOf (s : String) : Bytes := s.toList.map Char.toUInt8

/-- A Go runtime panic. -/
inductive Panic where
  | interfaceConversion
  | indexOutOfRange
  deriving DecidableEq, Repr

/-- Worker of `Split`: `skip` counts the elements of an already matched separator that are
still to be passed over. -/
def splitFrom {α : Type} [DecidableEq α] (sep : List α) : Nat → List α → List (List α)
  | _, [] => [[]]
  | skip + 1, _ :: cs => splitFrom sep skip cs
  | 0, c :: cs =>
    if sep.isPrefixOf (c :: cs) then [] :: splitFrom sep (sep.length - 1) cs
    else
      match splitFrom sep 0 cs with
      | [] => [[c]]
      | h :: t => (c :: h) :: t

/-- Go's `strings.Split(s, sep)` and `bytes.Split(s, sep)` for a non-empty separator (every
call site passes one): the pieces of `s` between the successive non-overlapping occurrences of
`sep`, found from the left. -/
def Split {α : Type} [DecidableEq α] (s sep : List α) : List (List α) :=
  splitFrom sep 0 s

/-- Worker of `Count`, with the same `skip` counter as `splitFrom`. -/
def countFrom {α : Type} [DecidableEq α] (sep : List α) : Nat → List α → Nat
  | _, [] => 0
  | skip + 1, _ :: cs => countFrom sep skip cs
  | 0, c :: cs =>
    if sep.isPrefixOf (c :: cs) then countFrom sep (sep.length - 1) cs + 1
    else countFrom sep 0 cs

/-- Go's `bytes.Count(s, sep)` for a non-empty separator: the number of non-overlapping
occurrences of `sep` in `s`. -/
def Count {α : Type} [DecidableEq α] (s sep : List α) : Nat :=
  countFrom sep 0 s

/-- Go's `bytes.Contains(b, sub)`: whether `sub` occurs in `b` at some position. -/
def Contains {α : Type} [DecidableEq α] (b sub : List α) : Bool :=
  match b with
  | [] => sub.isPrefixOf []
  | c :: cs => sub.isPrefixOf (c :: cs) || Contains cs sub

/-- Indexing `xs[i]` of a Go slice: panics when `i` is out of range. -/
def index {α : Type} (xs : List α) (i : Nat) : Except Panic α :=
  match xs[i]? with
  | some x => .ok x
  | none => .error .indexOutOfRange

/-- ASCII lower-casing, with which `strings.ToLower` agrees on ASCII strings. -/
def asciiToLower (s : Str) : Str := s.map Char.toLower

/-! ## Package-level state -/

/-- The mutable package-level variables `Version` and `SchemaLocation`. -/
structure Globals where
  Version : Str
  SchemaLocation : Str
  deriving DecidableEq, Repr

/-- The package-level `DefaultSchemaLocation`; the repository never assigns to it. -/
def DefaultSchemaLocation : Str := "https://kubernetesjsonschema.dev".toList

/-! ## Schema URL -/

/-- The function `getSchema(kind, apiVersion)`: the schema URL, together with the package-level
variables as the call leaves them. `ToLower` is `strings.ToLower`, `schema_location` is the value of
`viper.GetString("schema_location")`. -/
def getSchema (ToLower : Str → Str) (schema_location : Str) (g : Globals)
    (kind apiVersion : Str) : Except Panic (Str × Globals) := do
  -- set a default Version
  let g := if g.Version = [] then { g with Version := "master".toList } else g
  -- add prefix v into schema to match the tag in Kubernetes repo
  let normalisedVersion :=
    if g.Version ≠ "master".toList then "v".toList ++ g.Version else g.Version
  -- environment variable -> override in SchemaLocation -> default value
  let baseURLFromEnv := schema_location
  let baseURL :=
    if baseURLFromEnv ≠ [] then baseURLFromEnv
    else if g.SchemaLocation ≠ [] then g.SchemaLocation
    else DefaultSchemaLocation
  let strictSuffix := "-strict".toList
  let groupParts := Split apiVersion "/".toList
  let versionParts := Split (← index groupParts 0) ".".toList
  let kindSuffix ←
    if groupParts.length = 1 then do
      pure ("-".toList ++ ToLower (← index versionParts 0))
    else do
      pure ("-".toList ++ ToLower (← index versionParts 0) ++ "-".toList
        ++ ToLower (← index groupParts 1))
  pure (baseURL ++ "/".toList ++ normalisedVersion ++ "-standalone".toList ++ strictSuffix
    ++ "/".toList ++ ToLower kind ++ kindSuffix ++ ".json".toList, g)

/-! ## Decoded documents -/

/-- A scalar of a decoded YAML document (also the possible keys of a decoded mapping). -/
inductive Scalar where
  | null
  | bool (b : Bool)
  | int (i : Int)
  | float (bits : Nat)
  | str (s : Str)
  deriving DecidableEq, Repr

/-- What `yaml.Unmarshal` stores in an `interface{}`, plus the `map[string]interface{}` that
`convertToStringKeys` builds. A mapping is the list of its entries. -/
inductive Value where
  | scalar (s : Scalar)
  | seq (xs : List Value)
  | map (kvs : List (Scalar × Value))
  | stringMap (kvs : List (Str × Value))

/-- Whether an `interface{}` is `nil`. -/
def Value.isNil : Value → Bool
  | .scalar .null => true
  | _ => false

/-- The assertion `body.(map[string]interface{})` in its two-result form: the entries of the
map, or the nil map (no entries) when `body` is of another type. -/
def asStringMap : Value → List (Str × Value)
  | .stringMap kvs => kvs
  | _ => []

mutual
/-- The function `convertToStringKeys(i)`; the assertion `k.(string)` panics on a key that is
no string. -/
def convertToStringKeys : Value → Except Panic Value
  | .map x => do
    let m ← convertEntries x
    pure (.stringMap m)
  | .seq x => do
    let x ← convertElements x
    pure (.seq x)
  | i => pure i
/-- The loop of `convertToStringKeys` over the elements of a sequence. -/
def convertElements : List Value → Except Panic (List Value)
  | [] => pure []
  | v :: vs => do
    let w ← convertToStringKeys v
    let ws ← convertElements vs
    pure (w :: ws)
/-- The loop of `convertToStringKeys` over the entries of a mapping. -/
def convertEntries : List (Scalar × Value) → Except Panic (List (Str × Value))
  | [] => pure []
  | (k, v) :: kvs =>
    match k with
    | .str s => do
      let w ← convertToStringKeys v
      let ws ← convertEntries kvs
      pure ((s, w) :: ws)
    | _ => throw .interfaceConversion
end

/-! ## Results and errors -/

/-- A `gojsonschema.ResultError`, one violation. -/
structure ResultError where
  description : Str
  deriving DecidableEq, Repr

/-- A non-nil Go `error`, with its message. -/
structure GoError where
  msg : Str
  deriving DecidableEq, Repr

/-- The struct `ValidationResult`; the defaults are Go's zero values. -/
structure ValidationResult where
  FileName : Str
  Kind : Str := []
  APIVersion : Str := []
  Errors : List ResultError := []
  deriving DecidableEq, Repr

/-- A `multierror.Error`. -/
structure MultiError where
  Errors : List GoError
  deriving DecidableEq, Repr

/-- The call `multierror.Append(errors, err)` on a possibly nil `*multierror.Error`. -/
def multierrorAppend (errors : Option MultiError) (err : GoError) : Option MultiError :=
  match errors with
  | none => some { Errors := [err] }
  | some e => some { Errors := e.Errors ++ [err] }

/-- The method `ErrorOrNil` of a possibly nil `*multierror.Error`. -/
def ErrorOrNil (errors : Option MultiError) : Option MultiError :=
  match errors with
  | none => none
  | some e => if e.Errors.length = 0 then none else some e

/-! ## Line breaks -/

/-- The function `getLineBreak(body)`; `GOOS` is `runtime.GOOS`. -/
def getLineBreak (GOOS : Str) (body : Bytes) : Bytes :=
  let lineBreak :=
    if Contains body (bytesOf "\r\n") && GOOS == "windows".toList then bytesOf "\r\n"
    else bytesOf "\n"
  lineBreak ++ bytesOf "---" ++ lineBreak

/-! ## Validation of one resource -/

/-- The function `getKind(body)`: the kind and the error; the assertion `.(string)` panics on a
value that is neither absent, nil nor a string. -/
def getKind (body : Value) : Except Panic (Str × Option GoError) :=
  let bodyMap := asStringMap body
  match bodyMap.lookup "kind".toList with
  | none => .ok ([], some { msg := "Missing kind key".toList })
  | some (.scalar .null) => .ok ([], some { msg := "Missing kind value".toList })
  | some (.scalar (.str s)) => .ok (s, none)
  | some _ => .error .interfaceConversion

/-- The function `getAPIVersion(body)`, built like `getKind`. -/
def getAPIVersion (body : Value) : Except Panic (Str × Option GoError) :=
  let bodyMap := asStringMap body
  match bodyMap.lookup "apiVersion".toList with
  | none => .ok ([], some { msg := "Missing apiVersion key".toList })
  | some (.scalar .null) => .ok ([], some { msg := "Missing apiVersion value".toList })
  | some (.scalar (.str s)) => .ok (s, none)
  | some _ => .error .interfaceConversion

/-- One invocation of an external capability, as recorded in the call log. -/
inductive Call where
  | yamlUnmarshal (data : Bytes)
  | gojsonschemaValidate (schema : Str) (document : Value)

/-- What the package takes from outside: library functions and the process environment.
`W` is the state of the outside world that the schema capability reads and changes. -/
structure Env (W : Type) where
  /-- The function `strings.ToLower`. -/
  ToLower : Str → Str
  /-- The constant `runtime.GOOS`. -/
  GOOS : Str
  /-- The value of `viper.GetString("schema_location")`. -/
  schema_location : Str
  /-- The call `yaml.Unmarshal(data, &spec)`: the decoded `spec`, or `none` for an error. -/
  yamlUnmarshal : Bytes → Option Value
  /-- The call `gojsonschema.Validate(schemaLoader, documentLoader)` on the schema URL and the
  document: an error, or the violations of the result (none when it is valid). -/
  gojsonschemaValidate : W → Str → Value → Except GoError (List ResultError) × W

/-- The state a run threads: the package-level variables, the outside world, and the log of
the capability invocations made so far. -/
structure State (W : Type) where
  globals : Globals
  world : W
  calls : List Call

/-- The function `validateResource(data, fileName)`: the result and the error, with the state
as the call leaves it. -/
def validateResource {W : Type} (env : Env W) (st : State W) (data : Bytes) (fileName : Str) :
    Except Panic ((ValidationResult × Option GoError) × State W) :=
  let result : ValidationResult := { FileName := fileName }
  let st : State W := { st with calls := st.calls ++ [Call.yamlUnmarshal data] }
  match env.yamlUnmarshal data with
  | none => .ok ((result, some { msg := "Failed to decode YAML from ".toList ++ fileName }), st)
  | some spec =>
    match convertToStringKeys spec with
    | .error p => .error p
    | .ok body =>
      if body.isNil then .ok ((result, none), st)
      else
        let bodyMap := asStringMap body
        if bodyMap.length = 0 then .ok ((result, none), st)
        else
          match getKind body with
          | .error p => .error p
          | .ok (_, some err) => .ok ((result, some err), st)
          | .ok (kind, none) =>
            let result := { result with Kind := kind }
            match getAPIVersion body with
            | .error p => .error p
            | .ok (_, some err) => .ok ((result, some err), st)
            | .ok (apiVersion, none) =>
              let result := { result with APIVersion := apiVersion }
              match getSchema env.ToLower env.schema_location st.globals kind apiVersion with
              | .error p => .error p
              | .ok (schema, g) =>
                let (results, w) := env.gojsonschemaValidate st.world schema body
                let st : State W :=
                  { globals := g, world := w,
                    calls := st.calls ++ [Call.gojsonschemaValidate schema body] }
                match results with
                | .error err =>
                  .ok ((result, some { msg := "Failed to load schema from ".toList ++ schema
                    ++ ": ".toList ++ err.msg }), st)
                | .ok errors =>
                  if errors.length = 0 then .ok ((result, none), st)
                  else .ok (({ result with Errors := errors }, none), st)

/-! ## Validation of a file -/

/-- The loop of `Validate` over the documents still to be handled, from the results and the
errors collected so far. -/
def validateLoop {W : Type} (env : Env W) (fileName : Str) :
    List Bytes → State W → List ValidationResult → Option MultiError →
      Except Panic ((List ValidationResult × Option MultiError) × State W)
  | [], st, results, errors => .ok ((results, errors), st)
  | element :: bits, st, results, errors =>
    if element.length > 0 then
      match validateResource env st element fileName with
      | .error p => .error p
      | .ok ((result, err), st) =>
        let results := results ++ [result]
        match err with
        | some err => validateLoop env fileName bits st results (multierrorAppend errors err)
        | none => validateLoop env fileName bits st results errors
    else
      validateLoop env fileName bits st (results ++ [{ FileName := fileName }]) errors

/-- The function `Validate(config, fileName)`: the results and the combined error, with the
state as the call leaves it. -/
def Validate {W : Type} (env : Env W) (st : State W) (config : Bytes) (fileName : Str) :
    Except Panic ((List ValidationResult × Option MultiError) × State W) :=
  if config.length = 0 then .ok (([{ FileName := fileName }], none), st)
  else
    let bits := Split config (getLineBreak env.GOOS config)
    match validateLoop env fileName bits st [] none with
    | .error p => .error p
    | .ok ((results, errors), st) => .ok ((results, ErrorOrNil errors), st)

/-- What the successive calls of `validateResource` return on the non-empty documents of
`bits`, made in order from the state `st`, up to and including the first one that panics. -/
def resourceOutcomes {W : Type} (env : Env W) (fileName : Str) :
    List Bytes → State W → List (Except Panic (ValidationResult × Option GoError))
  | [], _ => []
  | element :: bits, st =>
    if element.length > 0 then
      match validateResource env st element fileName with
      | .error p => [.error p]
      | .ok (out, st) => .ok out :: resourceOutcomes env fileName bits st
    else resourceOutcomes env fileName bits st

/-- The error of an outcome of `validateResource`, when it returned one. -/
def outcomeError : Except Panic (ValidationResult × Option GoError) → Option GoError
  | .ok (_, err) => err
  | .error _ => none

/-! ## An example environment -/

/-- What `yaml.Unmarshal` yields on the documents of the examples below; `a: [` and any other
input count as malformed. -/
def exampleUnmarshal (data : Bytes) : Option Value :=
  if data = bytesOf "kind: Service\napiVersion: v1" then
    some (.map [(.str "kind".toList, .scalar (.str "Service".toList)),
      (.str "apiVersion".toList, .scalar (.str "v1".toList))])
  else if data = bytesOf "apiVersion: v1" then
    some (.map [(.str "apiVersion".toList, .scalar (.str "v1".toList))])
  else if data = bytesOf "kind: 5" then
    some (.map [(.str "kind".toList, .scalar (.int 5))])
  else if data = bytesOf "{}" then some (.map [])
  else none

/-- An environment for the examples: ASCII lower-casing, Linux, no `schema_location`, and a
schema capability that finds every document valid and counts its invocations. -/
def exampleEnv : Env Nat where
  ToLower := asciiToLower
  GOOS := "linux".toList
  schema_location := []
  yamlUnmarshal := exampleUnmarshal
  gojsonschemaValidate := fun w _ _ => (.ok [], w + 1)

/-- The state of a fresh process: no version, no schema location, no call made. -/
def exampleState : State Nat where
  globals := { Version := [], SchemaLocation := [] }
  world := 0
  calls := []

/-! ## Decoded trees with string keys -/

mutual
/-- Whether a tree is one `yaml.Unmarshal` can have decoded (no `map[string]interface{}` in
it) and every key of every mapping in it, at every depth, is a string. -/
def stringKeyed : Value → Bool
  | .scalar _ => true
  | .seq xs => stringKeyedElements xs
  | .map kvs => stringKeyedEntries kvs
  | .stringMap _ => false
/-- The elements of a sequence are all `stringKeyed`. -/
def stringKeyedElements : List Value → Bool
  | [] => true
  | v :: vs => stringKeyed v && stringKeyedElements vs
/-- The entries of a mapping all have a string key and a `stringKeyed` value. -/
def stringKeyedEntries : List (Scalar × Value) → Bool
  | [] => true
  | (k, v) :: kvs =>
    (match k with
      | .str _ => true
      | _ => false) && stringKeyed v && stringKeyedEntries kvs
end

/-- The string a string key holds (the empty string for a key that is no string). -/
def keyString : Scalar → Str
  | .str s => s
  | _ => []

mutual
/-- The normalization as the specification words it, to be compared with
`convertToStringKeys`: a scalar passes through unchanged, a sequence is normalized element by
element, a mapping keeps its keys, as strings, with every value normalized. -/
def normalForm : Value → Value
  | .scalar s => .scalar s
  | .seq xs => .seq (normalFormElements xs)
  | .map kvs => .stringMap (normalFormEntries kvs)
  | .stringMap kvs => .stringMap kvs
/-- The specification's normalization along a sequence. -/
def normalFormElements : List Value → List Value
  | [] => []
  | v :: vs => normalForm v :: normalFormElements vs
/-- The specification's normalization along the entries of a mapping. -/
def normalFormEntries : List (Scalar × Value) → List (Str × Value)
  | [] => []
  | (k, v) :: kvs => (keyString k, normalForm v) :: normalFormEntries kvs
end

/-! ## The command line (`cmd/root.go`) -/

/-- A line the command writes through its logger. -/
inductive LogLine where
  /-- The call `logger.Error(red(err))` with the combined error of `Validate`. -/
  | error (err : MultiError)
  /-- The call `logger.Error(red(...))` with a text of the command itself. -/
  | errorText (msg : Str)
  /-- The line `The file <FileName> contains an invalid <Kind>`. -/
  | invalid (fileName kind : Str)
  /-- The line `--> <desc>` for one violation. -/
  | violation (desc : ResultError)
  /-- The line `The file <FileName> is empty`. -/
  | empty (fileName : Str)
  /-- The line `The file <FileName> contains a valid <Kind>`. -/
  | valid (fileName kind : Str)
  deriving DecidableEq, Repr

/-- Whether a line reports a processing error or a result with violations. -/
def LogLine.isFailure : LogLine → Bool
  | .error _ => true
  | .errorText _ => true
  | .invalid _ _ => true
  | _ => false

/-- The function `logResults(results, success)`: the new `success`, with the log as the call
leaves it. -/
def logResults : List ValidationResult → Bool → List LogLine → Bool × List LogLine
  | [], success, log => (success, log)
  | result :: results, success, log =>
    if result.Errors.length > 0 then
      logResults results false
        (log ++ [LogLine.invalid result.FileName result.Kind]
          ++ result.Errors.map LogLine.violation)
    else if result.Kind = [] then
      logResults results success (log ++ [LogLine.empty result.FileName])
    else
      logResults results success (log ++ [LogLine.valid result.FileName result.Kind])

/-- The loop over the file arguments in `RootCmd.Run`, from `success` and the log so far:
`some code` when the loop has called `os.Exit(code)`, `none` when it has run to its end.
`ReadFile` is `ioutil.ReadFile` on the absolute path of the file. -/
def runFilesLoop {W : Type} (env : Env W) (ReadFile : Str → Option Bytes) :
    List Str → State W → Bool → List LogLine →
      Except Panic ((Option Nat × Bool × List LogLine) × State W)
  | [], st, success, log => .ok ((none, success, log), st)
  | fileName :: args, st, success, log =>
    match ReadFile fileName with
    | none =>
      .ok ((some 1, success,
        log ++ [LogLine.errorText ("Failed to open file ".toList ++ fileName)]), st)
    | some fileContents =>
      match Validate env st fileContents fileName with
      | .error p => .error p
      | .ok ((_, some err), st) => .ok ((some 1, success, log ++ [LogLine.error err]), st)
      | .ok ((results, none), st) =>
        let (success, log) := logResults results success log
        runFilesLoop env ReadFile args st success log

/-- The branch of `RootCmd.Run` over file arguments (`root.go`, the `else` of the test for
standard input): the exit status of the process and the log, with the final state. -/
def runFiles {W : Type} (env : Env W) (ReadFile : Str → Option Bytes) (args : List Str)
    (st : State W) : Except Panic ((Nat × List LogLine) × State W) :=
  if args.length < 1 then
    .ok ((1, [LogLine.errorText "Missing filename in argument".toList]), st)
  else
    match runFilesLoop env ReadFile args st true [] with
    | .error p => .error p
    | .ok ((some code, _, log), st) => .ok ((code, log), st)
    | .ok ((none, success, log), st) =>
      if !success then .ok ((1, log), st) else .ok ((0, log), st)

/-! ## A second example environment -/

/-- What `yaml.Unmarshal` yields on the documents of the later examples; any other input
counts as malformed. -/
def sampleUnmarshal (data : Bytes) : Option Value :=
  if data = bytesOf "kind: Service\napiVersion: v1" then
    some (.map [(.str "kind".toList, .scalar (.str "Service".toList)),
      (.str "apiVersion".toList, .scalar (.str "v1".toList))])
  else if data = bytesOf "kind: Pod\napiVersion: v1" then
    some (.map [(.str "kind".toList, .scalar (.str "Pod".toList)),
      (.str "apiVersion".toList, .scalar (.str "v1".toList))])
  else if data = bytesOf "kind: Deployment\napiVersion: apps/v1" then
    some (.map [(.str "kind".toList, .scalar (.str "Deployment".toList)),
      (.str "apiVersion".toList, .scalar (.str "apps/v1".toList))])
  else if data = bytesOf "kind: Service\napiVersion: 1" then
    some (.map [(.str "kind".toList, .scalar (.str "Service".toList)),
      (.str "apiVersion".toList, .scalar (.int 1))])
  else if data = bytesOf "kind: Service" then
    some (.map [(.str "kind".toList, .scalar (.str "Service".toList))])
  else if data = bytesOf "apiVersion: v1" then
    some (.map [(.str "apiVersion".toList, .scalar (.str "v1".toList))])
  else if data = bytesOf "kind: [a]" then
    some (.map [(.str "kind".toList, .seq [.scalar (.str "a".toList)])])
  else if data = bytesOf "1: a" then
    some (.map [(.int 1, .scalar (.str "a".toList))])
  else none

/-- A schema capability for the examples: the schema of `Service` finds every document valid,
the schema of `Pod` reports two violations, any other schema cannot be fetched; the world
counts the invocations. -/
def sampleValidate (w : Nat) (schema : Str) (_document : Value) :
    Except GoError (List ResultError) × Nat :=
  if schema = "https://kubernetesjsonschema.dev/master-standalone-strict/service-v1.json".toList
  then (.ok [], w + 1)
  else if schema = "https://kubernetesjsonschema.dev/master-standalone-strict/pod-v1.json".toList
  then (.ok [{ description := "metadata: metadata is required".toList },
    { description := "spec: spec is required".toList }], w + 1)
  else (.error { msg := "Could not read schema from HTTP, response status is 404".toList },
    w + 1)

/-- The second environment for the examples. -/
def sampleEnv : Env Nat where
  ToLower := asciiToLower
  GOOS := "linux".toList
  schema_location := []
  yamlUnmarshal := sampleUnmarshal
  gojsonschemaValidate := sampleValidate

/-- The files of the command-line examples. -/
def sampleReadFile (fileName : Str) : Option Bytes :=
  if fileName = "bad.yaml".toList then
    some (bytesOf "apiVersion: v1\n---\nkind: Service\napiVersion: v1")
  else if fileName = "good.yaml".toList then some (bytesOf "kind: Service\napiVersion: v1")
  else if fileName = "pod.yaml".toList then some (bytesOf "kind: Pod\napiVersion: v1")
  else none

/-! # Theorems -/

/-! ## Facts about splitting -/

theorem splitFrom_ne_nil {α : Type} [DecidableEq α] (sep : List α) :
    ∀ (s : List α) (k : Nat), splitFrom sep k s ≠ []
  | [], k => by cases k <;> simp [splitFrom]
  | _ :: cs, k + 1 => by simpa [splitFrom] using splitFrom_ne_nil sep cs k
  | c :: cs, 0 => by
    simp only [splitFrom]
    split
    · simp
    · split <;> simp

theorem Split_ne_nil {α : Type} [DecidableEq α] (s sep : List α) : Split s sep ≠ [] :=
  splitFrom_ne_nil sep s 0

/-- Splitting on a one-element separator that does not occur gives the input back. -/
theorem Split_single_of_not_mem {α : Type} [DecidableEq α] (c : α) :
    ∀ s : List α, c ∉ s → Split s [c] = [s]
  | [], _ => rfl
  | x :: xs, h => by
    have hx : c ≠ x := fun e => h (e ▸ List.mem_cons_self _ _)
    have hxs : c ∉ xs := fun m => h (List.mem_cons_of_mem _ m)
    have ih := Split_single_of_not_mem c xs hxs
    simp only [Split] at ih ⊢
    simp [splitFrom, ih, hx]

/-- Splitting on a one-element separator cuts at its first occurrence. -/
theorem Split_single_append {α : Type} [DecidableEq α] (c : α) (b : List α) :
    ∀ a : List α, c ∉ a → Split (a ++ c :: b) [c] = a :: Split b [c]
  | [], _ => by simp [Split, splitFrom]
  | x :: xs, h => by
    have hx : c ≠ x := fun e => h (e ▸ List.mem_cons_self _ _)
    have hxs : c ∉ xs := fun m => h (List.mem_cons_of_mem _ m)
    have ih := Split_single_append c b xs hxs
    simp only [Split] at ih ⊢
    simp [splitFrom, ih, hx]

/-- The first piece of a split on one element is the input up to its first occurrence. -/
theorem Split_single_head {α : Type} [DecidableEq α] (c : α) :
    ∀ s : List α, (Split s [c]).head? = some (s.takeWhile (fun x => x != c))
  | [] => rfl
  | x :: xs => by
    have ih := Split_single_head c xs
    simp only [Split] at ih ⊢
    by_cases hx : c = x
    · subst hx
      simp [splitFrom]
    · have hx2 : ¬ x = c := fun e => hx e.symm
      simp only [splitFrom, List.isPrefixOf, hx, beq_iff_eq, Bool.and_true]
      cases hs : splitFrom [c] 0 xs with
      | nil => exact absurd hs (splitFrom_ne_nil _ _ _)
      | cons h t =>
        rw [hs] at ih
        simp at ih
        have hb : (x != c) = true := by simp [hx2]
        simp [List.takeWhile_cons, hb, ih]

theorem index_zero_eq {α : Type} (xs : List (List α)) (h : xs ≠ []) :
    index xs 0 = .ok (xs.headD []) := by
  cases xs with
  | nil => exact absurd rfl h
  | cons y ys => simp [index]

theorem index_one_eq {α : Type} (xs : List (List α)) (h : xs ≠ []) (h1 : xs.length ≠ 1) :
    index xs 1 = .ok (xs.getD 1 []) := by
  match xs, h, h1 with
  | [_], _, h1 => exact absurd rfl h1
  | _ :: _ :: _, _, _ => simp [index]

/-- Closed form of `getSchema`: it never panics, and the URL is the concatenation below. -/
theorem getSchema_ok (ToLower : Str → Str) (schema_location : Str) (g : Globals)
    (kind apiVersion : Str) :
    getSchema ToLower schema_location g kind apiVersion =
      .ok ((if schema_location ≠ [] then schema_location
            else if g.SchemaLocation ≠ [] then g.SchemaLocation else DefaultSchemaLocation)
          ++ "/".toList
          ++ (if g.Version = [] ∨ g.Version = "master".toList then "master".toList
              else "v".toList ++ g.Version)
          ++ "-standalone-strict".toList ++ "/".toList ++ ToLower kind
          ++ (if (Split apiVersion "/".toList).length = 1 then
                "-".toList
                  ++ ToLower ((Split ((Split apiVersion "/".toList).headD []) ".".toList).headD [])
              else
                "-".toList
                  ++ ToLower ((Split ((Split apiVersion "/".toList).headD []) ".".toList).headD [])
                  ++ "-".toList ++ ToLower ((Split apiVersion "/".toList).getD 1 []))
          ++ ".json".toList,
        if g.Version = [] then { g with Version := "master".toList } else g) := by
  have hlit : "-standalone-strict".toList = "-standalone".toList ++ "-strict".toList := rfl
  have h0 := index_zero_eq (Split apiVersion "/".toList) (Split_ne_nil _ _)
  have hv := index_zero_eq (Split ((Split apiVersion "/".toList).headD []) ".".toList)
    (Split_ne_nil _ _)
  have h1 := index_one_eq (Split apiVersion "/".toList) (Split_ne_nil _ _)
  unfold getSchema
  simp only [bind, Except.bind, pure, Except.pure, h0, hv, hlit]
  generalize Split apiVersion "/".toList = parts at h1 ⊢
  generalize (Split (parts.headD []) ".".toList).headD [] = seg
  by_cases hlen : parts.length = 1
  · by_cases hver : g.Version = []
    · simp [hlen, hver]
    · by_cases hm : g.Version = ['m', 'a', 's', 't', 'e', 'r']
      · simp [hlen, hver, hm]
      · simp [hlen, hver, hm]
  · have h1 := h1 hlen
    by_cases hver : g.Version = []
    · simp [hlen, hver, h1]
    · by_cases hm : g.Version = ['m', 'a', 's', 't', 'e', 'r']
      · simp [hlen, hver, hm, h1]
      · simp [hlen, hver, hm, h1]

theorem headD_Split_single {α : Type} [DecidableEq α] (c : α) (s : List α) :
    (Split s [c]).headD [] = s.takeWhile (fun x => x != c) := by
  have h := Split_single_head c s
  cases hs : Split s [c] with
  | nil => exact absurd hs (Split_ne_nil _ _)
  | cons a t =>
    rw [hs] at h
    simpa using h

/-- Splitting `group/version` on the slash, when neither side holds one. -/
theorem Split_group_version (group version : Str) (hg : '/' ∉ group) (hv : '/' ∉ version) :
    Split (group ++ "/".toList ++ version) "/".toList = [group, version] := by
  show Split (group ++ ['/'] ++ version) ['/'] = [group, version]
  rw [List.append_assoc, List.singleton_append, Split_single_append '/' version group hg,
    Split_single_of_not_mem '/' version hv]

/-- The URL of `getSchema` for an `apiVersion` of the form `group/version`. -/
theorem getSchema_group_version (ToLower : Str → Str) (schema_location : Str) (g : Globals)
    (kind group version : Str) (hg : '/' ∉ group) (hv : '/' ∉ version) :
    getSchema ToLower schema_location g kind (group ++ "/".toList ++ version) =
      .ok ((if schema_location ≠ [] then schema_location
            else if g.SchemaLocation ≠ [] then g.SchemaLocation else DefaultSchemaLocation)
          ++ "/".toList
          ++ (if g.Version = [] ∨ g.Version = "master".toList then "master".toList
              else "v".toList ++ g.Version)
          ++ "-standalone-strict".toList ++ "/".toList ++ ToLower kind
          ++ ("-".toList ++ ToLower (group.takeWhile (fun c => c != '.')) ++ "-".toList
              ++ ToLower version)
          ++ ".json".toList,
        if g.Version = [] then { g with Version := "master".toList } else g) := by
  have hd : (Split group ".".toList).headD [] = group.takeWhile (fun c => c != '.') :=
    headD_Split_single '.' group
  rw [getSchema_ok, Split_group_version group version hg hv]
  have h2 : ¬ ([group, version].length = 1) := by simp
  rw [if_neg h2]
  show Except.ok (_ ++ ("-".toList ++ ToLower ((Split group ".".toList).headD []) ++ "-".toList
    ++ ToLower version) ++ ".json".toList, _) = _
  rw [hd]

/-- The URL of `getSchema` for an `apiVersion` without a slash. -/
theorem getSchema_single_part (ToLower : Str → Str) (schema_location : Str) (g : Globals)
    (kind apiVersion : Str) (h : '/' ∉ apiVersion) :
    getSchema ToLower schema_location g kind apiVersion =
      .ok ((if schema_location ≠ [] then schema_location
            else if g.SchemaLocation ≠ [] then g.SchemaLocation else DefaultSchemaLocation)
          ++ "/".toList
          ++ (if g.Version = [] ∨ g.Version = "master".toList then "master".toList
              else "v".toList ++ g.Version)
          ++ "-standalone-strict".toList ++ "/".toList ++ ToLower kind
          ++ ("-".toList ++ ToLower (apiVersion.takeWhile (fun c => c != '.')))
          ++ ".json".toList,
        if g.Version = [] then { g with Version := "master".toList } else g) := by
  have hs : Split apiVersion "/".toList = [apiVersion] := Split_single_of_not_mem '/' apiVersion h
  have hd : (Split apiVersion ".".toList).headD [] = apiVersion.takeWhile (fun c => c != '.') :=
    headD_Split_single '.' apiVersion
  rw [getSchema_ok, hs]
  have h1 : [apiVersion].length = 1 := rfl
  rw [if_pos h1]
  show Except.ok (_ ++ ("-".toList ++ ToLower ((Split apiVersion ".".toList).headD []))
    ++ ".json".toList, _) = _
  rw [hd]

/-- A URL of the shape `getSchema` builds ends in the slash and what follows it. -/
theorem suffix_of_url (b n k x j t : Str) (h : "/".toList ++ k ++ x ++ j = t) :
    t <:+ (b ++ "/".toList ++ n ++ "-standalone-strict".toList ++ "/".toList ++ k ++ x ++ j) := by
  subst h
  exact ⟨b ++ "/".toList ++ n ++ "-standalone-strict".toList, by simp only [List.append_assoc]⟩

/-- C1: for an `apiVersion` of the form `group/version` with exactly one slash, the URL of
`getSchema` ends in `/` + lowercase(kind) + `-` + lowercase(the part of the group before its
first dot) + `-` + lowercase(version) + `.json`; in particular `apps/v1` with `Deployment`
ends in `deployment-apps-v1.json`, `storage.k8s.io/v1` with `StorageClass` ends in
`storageclass-storage-v1.json`, and `v1` with `Service` ends in `service-v1.json`. -/
theorem getSchema_group_version_suffix :
    (∀ (ToLower : Str → Str) (schema_location : Str) (g : Globals) (kind group version : Str),
      '/' ∉ group → '/' ∉ version →
      ∃ url g', getSchema ToLower schema_location g kind (group ++ "/".toList ++ version)
          = .ok (url, g') ∧
        ("/".toList ++ ToLower kind ++ "-".toList
          ++ ToLower (group.takeWhile (fun c => c != '.')) ++ "-".toList ++ ToLower version
          ++ ".json".toList) <:+ url) ∧
    (∀ (schema_location : Str) (g : Globals),
      ∃ url g', getSchema asciiToLower schema_location g "Deployment".toList "apps/v1".toList
          = .ok (url, g') ∧
        "/deployment-apps-v1.json".toList <:+ url) ∧
    (∀ (schema_location : Str) (g : Globals),
      ∃ url g', getSchema asciiToLower schema_location g "StorageClass".toList
          "storage.k8s.io/v1".toList = .ok (url, g') ∧
        "/storageclass-storage-v1.json".toList <:+ url) ∧
    (∀ (schema_location : Str) (g : Globals),
      ∃ url g', getSchema asciiToLower schema_location g "Service".toList "v1".toList
          = .ok (url, g') ∧
        "/service-v1.json".toList <:+ url) := by
  refine ⟨?_, ?_, ?_, ?_⟩
  · intro ToLower schema_location g kind group version hg hv
    refine ⟨_, _,
      getSchema_group_version ToLower schema_location g kind group version hg hv, ?_⟩
    exact suffix_of_url _ _ _ _ _ _ (by simp only [List.append_assoc])
  · intro schema_location g
    refine ⟨_, _, getSchema_group_version asciiToLower schema_location g "Deployment".toList
      "apps".toList "v1".toList (by decide) (by decide), ?_⟩
    exact suffix_of_url _ _ _ _ _ _ (by rfl)
  · intro schema_location g
    refine ⟨_, _, getSchema_group_version asciiToLower schema_location g "StorageClass".toList
      "storage.k8s.io".toList "v1".toList (by decide) (by decide), ?_⟩
    exact suffix_of_url _ _ _ _ _ _ (by rfl)
  · intro schema_location g
    refine ⟨_, _, getSchema_single_part asciiToLower schema_location g "Service".toList
      "v1".toList (by decide), ?_⟩
    exact suffix_of_url _ _ _ _ _ _ (by rfl)

/-- C1 (example): `apiextensions.k8s.io/v1beta1` with kind `CustomResourceDefinition`. -/
theorem getSchema_group_version_suffix_witness :
    '/' ∉ "apiextensions.k8s.io".toList ∧ '/' ∉ "v1beta1".toList ∧
    ∃ url g', getSchema asciiToLower [] { Version := [], SchemaLocation := [] }
        "CustomResourceDefinition".toList
        ("apiextensions.k8s.io".toList ++ "/".toList ++ "v1beta1".toList) = .ok (url, g') ∧
      "/customresourcedefinition-apiextensions-v1beta1.json".toList <:+ url :=
  ⟨by decide, by decide,
    getSchema_group_version_suffix.1 asciiToLower [] { Version := [], SchemaLocation := [] }
      "CustomResourceDefinition".toList "apiextensions.k8s.io".toList "v1beta1".toList
      (by decide) (by decide)⟩

/-- C2 (counterexample): for the slash-free `apiVersion` `v1.2` the URL of `getSchema` ends in
`service-v1.json`; it is not the URL whose kind suffix is the whole lowercased part, which
would end in `service-v1.2.json`. -/
theorem getSchema_single_part_whole_counterexample :
    '/' ∉ "v1.2".toList ∧
    getSchema asciiToLower [] { Version := [], SchemaLocation := [] } "Service".toList
        "v1.2".toList
      = .ok ("https://kubernetesjsonschema.dev/master-standalone-strict/service-v1.json".toList,
          { Version := "master".toList, SchemaLocation := [] }) ∧
    "https://kubernetesjsonschema.dev/master-standalone-strict/service-v1.json".toList ≠
      DefaultSchemaLocation ++ "/".toList ++ "master".toList ++ "-standalone-strict/".toList
        ++ asciiToLower "Service".toList ++ "-".toList ++ asciiToLower "v1.2".toList
        ++ ".json".toList :=
  ⟨by decide, rfl, by decide⟩

/-- C2 (amended): for an `apiVersion` without a slash, `getSchema` returns exactly baseURL +
`/` + normalizedVersion + `-standalone-strict/` + lowercase(kind) + `-` + lowercase(the part
of `apiVersion` before its first dot) + `.json`; when `apiVersion` holds no dot either, that
part is the whole `apiVersion`. -/
theorem getSchema_single_part_url (ToLower : Str → Str) (schema_location : Str) (g : Globals)
    (kind apiVersion : Str) (h : '/' ∉ apiVersion) :
    (∃ g', getSchema ToLower schema_location g kind apiVersion =
      .ok ((if schema_location ≠ [] then schema_location
            else if g.SchemaLocation ≠ [] then g.SchemaLocation
            else "https://kubernetesjsonschema.dev".toList)
          ++ "/".toList
          ++ (if g.Version = [] ∨ g.Version = "master".toList then "master".toList
              else "v".toList ++ g.Version)
          ++ "-standalone-strict/".toList ++ ToLower kind ++ "-".toList
          ++ ToLower (apiVersion.takeWhile (fun c => c != '.')) ++ ".json".toList, g')) ∧
    ('.' ∉ apiVersion →
      ∃ g', getSchema ToLower schema_location g kind apiVersion =
        .ok ((if schema_location ≠ [] then schema_location
              else if g.SchemaLocation ≠ [] then g.SchemaLocation
              else "https://kubernetesjsonschema.dev".toList)
            ++ "/".toList
            ++ (if g.Version = [] ∨ g.Version = "master".toList then "master".toList
                else "v".toList ++ g.Version)
            ++ "-standalone-strict/".toList ++ ToLower kind ++ "-".toList
            ++ ToLower apiVersion ++ ".json".toList, g')) := by
  have hlit : "-standalone-strict/".toList = "-standalone-strict".toList ++ "/".toList := rfl
  have hdef : "https://kubernetesjsonschema.dev".toList = DefaultSchemaLocation := rfl
  have key := getSchema_single_part ToLower schema_location g kind apiVersion h
  refine ⟨⟨if g.Version = [] then { g with Version := "master".toList } else g, ?_⟩,
    fun hdot => ⟨if g.Version = [] then { g with Version := "master".toList } else g, ?_⟩⟩
  · rw [key, hlit, hdef]
    simp only [List.append_assoc]
  · have hw : apiVersion.takeWhile (fun c => c != '.') = apiVersion := by
      rw [List.takeWhile_eq_self_iff]
      intro c hc
      have : c ≠ '.' := fun e => hdot (e ▸ hc)
      simpa using this
    rw [key, hlit, hdef, hw]
    simp only [List.append_assoc]

/-- C2 (witness): the core `apiVersion` `v1` with kind `Service`. -/
theorem getSchema_single_part_url_witness :
    '/' ∉ "v1".toList ∧
    ∃ g', getSchema asciiToLower [] { Version := [], SchemaLocation := [] } "Service".toList
        "v1".toList
      = .ok ("https://kubernetesjsonschema.dev/master-standalone-strict/service-v1.json".toList,
          g') :=
  ⟨by decide,
    (getSchema_single_part_url asciiToLower [] { Version := [], SchemaLocation := [] }
      "Service".toList "v1".toList (by decide)).1⟩

/-- C3 (counterexample): for `storage.k8s.io/v1` with kind `StorageClass` the URL of
`getSchema` ends in `storageclass-storage-v1.json`; it does not end in lowercase(kind) + `-` +
lowercase(first dot segment of the version part) + `-` + lowercase(group) + `.json`. -/
theorem getSchema_version_first_counterexample :
    getSchema asciiToLower [] { Version := [], SchemaLocation := [] } "StorageClass".toList
        ("storage.k8s.io".toList ++ "/".toList ++ "v1".toList)
      = .ok ("https://kubernetesjsonschema.dev".toList
            ++ "/master-standalone-strict/storageclass-storage-v1.json".toList,
          { Version := "master".toList, SchemaLocation := [] }) ∧
    ¬ ((asciiToLower "StorageClass".toList ++ "-".toList
          ++ asciiToLower ("v1".toList.takeWhile (fun c => c != '.')) ++ "-".toList
          ++ asciiToLower "storage.k8s.io".toList ++ ".json".toList)
        <:+ ("https://kubernetesjsonschema.dev".toList
            ++ "/master-standalone-strict/storageclass-storage-v1.json".toList)) :=
  ⟨rfl, by decide⟩

/-- C3 (amended): for an `apiVersion` of two parts `group/version`, `getSchema` builds the kind
suffix as `-` + lowercase(first dot-delimited segment of the group part) + `-` +
lowercase(version part), so that the URL ends in lowercase(kind) + that suffix + `.json`. -/
theorem getSchema_kindSuffix_two_parts (ToLower : Str → Str) (schema_location : Str)
    (g : Globals) (kind group version : Str) (hg : '/' ∉ group) (hv : '/' ∉ version) :
    ∃ (base dir : Str) (g' : Globals),
      getSchema ToLower schema_location g kind (group ++ "/".toList ++ version) =
        .ok (base ++ "/".toList ++ dir ++ "/".toList ++ ToLower kind
          ++ ("-".toList ++ ToLower (group.takeWhile (fun c => c != '.')) ++ "-".toList
              ++ ToLower version)
          ++ ".json".toList, g') ∧
      (ToLower kind
          ++ ("-".toList ++ ToLower (group.takeWhile (fun c => c != '.')) ++ "-".toList
              ++ ToLower version)
          ++ ".json".toList)
        <:+ (base ++ "/".toList ++ dir ++ "/".toList ++ ToLower kind
          ++ ("-".toList ++ ToLower (group.takeWhile (fun c => c != '.')) ++ "-".toList
              ++ ToLower version)
          ++ ".json".toList) := by
  refine ⟨if schema_location ≠ [] then schema_location
      else if g.SchemaLocation ≠ [] then g.SchemaLocation else DefaultSchemaLocation,
    (if g.Version = [] ∨ g.Version = "master".toList then "master".toList
      else "v".toList ++ g.Version) ++ "-standalone-strict".toList,
    if g.Version = [] then { g with Version := "master".toList } else g, ?_, ?_⟩
  · rw [getSchema_group_version ToLower schema_location g kind group version hg hv]
    simp only [List.append_assoc]
  · exact ⟨(if schema_location ≠ [] then schema_location
        else if g.SchemaLocation ≠ [] then g.SchemaLocation else DefaultSchemaLocation)
      ++ "/".toList
      ++ ((if g.Version = [] ∨ g.Version = "master".toList then "master".toList
          else "v".toList ++ g.Version) ++ "-standalone-strict".toList)
      ++ "/".toList, by simp only [List.append_assoc]⟩

/-- C3 (witness): `apps/v1` with kind `Deployment`. -/
theorem getSchema_kindSuffix_two_parts_witness :
    '/' ∉ "apps".toList ∧ '/' ∉ "v1".toList ∧
    ∃ (base dir : Str) (g' : Globals),
      getSchema asciiToLower [] { Version := [], SchemaLocation := [] } "Deployment".toList
          ("apps".toList ++ "/".toList ++ "v1".toList) =
        .ok (base ++ "/".toList ++ dir ++ "/".toList ++ "deployment-apps-v1.json".toList, g') :=
  ⟨by decide, by decide,
    (getSchema_kindSuffix_two_parts asciiToLower [] { Version := [], SchemaLocation := [] }
      "Deployment".toList "apps".toList "v1".toList (by decide) (by decide)).imp
      fun _ h => h.imp fun _ h => h.imp fun _ h => by
        have h1 := h.1
        simp only [List.append_assoc] at h1 ⊢
        exact h1⟩

/-- The URL of `getSchema` as base URL, slash, and a rest that depends neither on
`schema_location` nor on `SchemaLocation`. -/
theorem getSchema_base_rest (ToLower : Str → Str) (kind apiVersion version : Str) :
    ∃ rest : Str, ∀ (schema_location SchemaLocation : Str),
      getSchema ToLower schema_location { Version := version, SchemaLocation := SchemaLocation }
          kind apiVersion =
        .ok ((if schema_location ≠ [] then schema_location
              else if SchemaLocation ≠ [] then SchemaLocation
              else "https://kubernetesjsonschema.dev".toList) ++ "/".toList ++ rest,
          if version = [] then { Version := "master".toList, SchemaLocation := SchemaLocation }
          else { Version := version, SchemaLocation := SchemaLocation }) := by
  refine ⟨(if version = [] ∨ version = "master".toList then "master".toList
      else "v".toList ++ version) ++ "-standalone-strict".toList ++ "/".toList ++ ToLower kind
      ++ (if (Split apiVersion "/".toList).length = 1 then
            "-".toList
              ++ ToLower ((Split ((Split apiVersion "/".toList).headD []) ".".toList).headD [])
          else
            "-".toList
              ++ ToLower ((Split ((Split apiVersion "/".toList).headD []) ".".toList).headD [])
              ++ "-".toList ++ ToLower ((Split apiVersion "/".toList).getD 1 []))
      ++ ".json".toList, ?_⟩
  intro schema_location SchemaLocation
  have hdef : "https://kubernetesjsonschema.dev".toList = DefaultSchemaLocation := rfl
  rw [getSchema_ok, hdef]
  simp only [List.append_assoc]

/-- C4: the base URL of `getSchema` is the environment-bound `schema_location` when it is
non-empty, otherwise `SchemaLocation` when it is non-empty, otherwise the built-in default
`https://kubernetesjsonschema.dev`, and what follows the base URL does not depend on either;
so three configurations (environment set, only `SchemaLocation` set, neither set) with pairwise
different values give three different URLs for one resource, each starting with its base
followed by `/`. -/
theorem getSchema_baseURL_precedence :
    (∀ (ToLower : Str → Str) (kind apiVersion version : Str),
      ∃ rest : Str, ∀ (schema_location SchemaLocation : Str),
        ∃ g', getSchema ToLower schema_location
            { Version := version, SchemaLocation := SchemaLocation } kind apiVersion =
          .ok ((if schema_location ≠ [] then schema_location
                else if SchemaLocation ≠ [] then SchemaLocation
                else "https://kubernetesjsonschema.dev".toList) ++ "/".toList ++ rest, g')) ∧
    (∀ (ToLower : Str → Str) (kind apiVersion version e s l : Str),
      e ≠ [] → s ≠ [] → e ≠ s → e ≠ "https://kubernetesjsonschema.dev".toList →
      s ≠ "https://kubernetesjsonschema.dev".toList →
      ∃ (u₁ u₂ u₃ : Str) (g₁ g₂ g₃ : Globals),
        getSchema ToLower e { Version := version, SchemaLocation := l } kind apiVersion
          = .ok (u₁, g₁) ∧
        getSchema ToLower [] { Version := version, SchemaLocation := s } kind apiVersion
          = .ok (u₂, g₂) ∧
        getSchema ToLower [] { Version := version, SchemaLocation := [] } kind apiVersion
          = .ok (u₃, g₃) ∧
        (e ++ "/".toList) <+: u₁ ∧ (s ++ "/".toList) <+: u₂ ∧
        ("https://kubernetesjsonschema.dev".toList ++ "/".toList) <+: u₃ ∧
        u₁ ≠ u₂ ∧ u₁ ≠ u₃ ∧ u₂ ≠ u₃) := by
  constructor
  · intro ToLower kind apiVersion version
    obtain ⟨rest, h⟩ := getSchema_base_rest ToLower kind apiVersion version
    exact ⟨rest, fun a b => ⟨_, h a b⟩⟩
  · intro ToLower kind apiVersion version e s l he hs hes heD hsD
    obtain ⟨rest, h⟩ := getSchema_base_rest ToLower kind apiVersion version
    have h₁ := h e l
    have h₂ := h [] s
    have h₃ := h [] []
    rw [if_pos he] at h₁
    rw [if_neg (fun c => c rfl), if_pos hs] at h₂
    rw [if_neg (fun c => c rfl), if_neg (fun c => c rfl)] at h₃
    have cancel : ∀ a b : Str, a ++ "/".toList ++ rest = b ++ "/".toList ++ rest → a = b :=
      fun a b hab => List.append_cancel_right (List.append_cancel_right hab)
    exact ⟨_, _, _, _, _, _, h₁, h₂, h₃, List.prefix_append _ _, List.prefix_append _ _,
      List.prefix_append _ _, fun c => hes (cancel _ _ c), fun c => heD (cancel _ _ c),
      fun c => hsD (cancel _ _ c)⟩

/-- C4 (witness): environment `http://env`, configured location `http://flag`, and neither,
for `Service` of `v1`. -/
theorem getSchema_baseURL_precedence_witness :
    getSchema asciiToLower "http://env".toList
        { Version := [], SchemaLocation := "http://flag".toList } "Service".toList "v1".toList
      = .ok ("http://env/master-standalone-strict/service-v1.json".toList,
          { Version := "master".toList, SchemaLocation := "http://flag".toList }) ∧
    getSchema asciiToLower [] { Version := [], SchemaLocation := "http://flag".toList }
        "Service".toList "v1".toList
      = .ok ("http://flag/master-standalone-strict/service-v1.json".toList,
          { Version := "master".toList, SchemaLocation := "http://flag".toList }) ∧
    getSchema asciiToLower [] { Version := [], SchemaLocation := [] } "Service".toList
        "v1".toList
      = .ok ("https://kubernetesjsonschema.dev/master-standalone-strict/service-v1.json".toList,
          { Version := "master".toList, SchemaLocation := [] }) ∧
    ∃ (u₁ u₂ u₃ : Str) (g₁ g₂ g₃ : Globals),
      getSchema asciiToLower "http://env".toList
          { Version := [], SchemaLocation := "http://flag".toList } "Service".toList "v1".toList
        = .ok (u₁, g₁) ∧
      getSchema asciiToLower [] { Version := [], SchemaLocation := "http://flag".toList }
          "Service".toList "v1".toList
        = .ok (u₂, g₂) ∧
      getSchema asciiToLower [] { Version := [], SchemaLocation := [] } "Service".toList
          "v1".toList
        = .ok (u₃, g₃) ∧
      ("http://env".toList ++ "/".toList) <+: u₁ ∧
      ("http://flag".toList ++ "/".toList) <+: u₂ ∧
      ("https://kubernetesjsonschema.dev".toList ++ "/".toList) <+: u₃ ∧
      u₁ ≠ u₂ ∧ u₁ ≠ u₃ ∧ u₂ ≠ u₃ :=
  ⟨rfl, rfl, rfl,
    getSchema_baseURL_precedence.2 asciiToLower "Service".toList "v1".toList []
      "http://env".toList "http://flag".toList "http://flag".toList
      (by decide) (by decide) (by decide) (by decide) (by decide)⟩

/-- C5: the directory component of the URL of `getSchema` is `master-standalone-strict` when
`Version` is `master` or empty, and `v` + `Version` + `-standalone-strict` for every other
`Version`, also one that starts with `v` already (`v1.18.0` gives `vv1.18.0-standalone-strict`);
the base URL before it and the file name after it do not depend on `Version`. -/
theorem getSchema_version_directory :
    (∀ (ToLower : Str → Str) (kind apiVersion : Str),
      ∃ file : Str, ∀ (schema_location : Str) (g : Globals),
        ∃ g', getSchema ToLower schema_location g kind apiVersion =
          .ok ((if schema_location ≠ [] then schema_location
                else if g.SchemaLocation ≠ [] then g.SchemaLocation
                else "https://kubernetesjsonschema.dev".toList)
              ++ "/".toList
              ++ (if g.Version = [] ∨ g.Version = "master".toList then
                    "master-standalone-strict".toList
                  else "v".toList ++ g.Version ++ "-standalone-strict".toList)
              ++ "/".toList ++ file, g')) ∧
    getSchema asciiToLower [] { Version := "v1.18.0".toList, SchemaLocation := [] }
        "Service".toList "v1".toList
      = .ok ("https://kubernetesjsonschema.dev/vv1.18.0-standalone-strict/service-v1.json".toList,
          { Version := "v1.18.0".toList, SchemaLocation := [] }) ∧
    getSchema asciiToLower [] { Version := "1.18.0".toList, SchemaLocation := [] }
        "Service".toList "v1".toList
      = .ok ("https://kubernetesjsonschema.dev/v1.18.0-standalone-strict/service-v1.json".toList,
          { Version := "1.18.0".toList, SchemaLocation := [] }) ∧
    getSchema asciiToLower [] { Version := "master".toList, SchemaLocation := [] }
        "Service".toList "v1".toList
      = .ok ("https://kubernetesjsonschema.dev/master-standalone-strict/service-v1.json".toList,
          { Version := "master".toList, SchemaLocation := [] }) ∧
    getSchema asciiToLower [] { Version := [], SchemaLocation := [] }
        "Service".toList "v1".toList
      = .ok ("https://kubernetesjsonschema.dev/master-standalone-strict/service-v1.json".toList,
          { Version := "master".toList, SchemaLocation := [] }) := by
  refine ⟨?_, rfl, rfl, rfl, rfl⟩
  intro ToLower kind apiVersion
  refine ⟨ToLower kind
      ++ (if (Split apiVersion "/".toList).length = 1 then
            "-".toList
              ++ ToLower ((Split ((Split apiVersion "/".toList).headD []) ".".toList).headD [])
          else
            "-".toList
              ++ ToLower ((Split ((Split apiVersion "/".toList).headD []) ".".toList).headD [])
              ++ "-".toList ++ ToLower ((Split apiVersion "/".toList).getD 1 []))
      ++ ".json".toList, ?_⟩
  intro schema_location g
  refine ⟨if g.Version = [] then { g with Version := "master".toList } else g, ?_⟩
  have hdef : "https://kubernetesjsonschema.dev".toList = DefaultSchemaLocation := rfl
  have hm : "master-standalone-strict".toList = "master".toList ++ "-standalone-strict".toList :=
    rfl
  rw [getSchema_ok, hdef, hm]
  by_cases hv : g.Version = [] ∨ g.Version = "master".toList
  · rw [if_pos hv, if_pos hv]
    simp only [List.append_assoc]
  · rw [if_neg hv, if_neg hv]
    simp only [List.append_assoc]

/-! ## Facts about `validateResource` and the loop of `Validate` -/

/-- The errors a possibly nil `*multierror.Error` holds. -/
theorem ErrorOrNil_eq_none_iff (errors : Option MultiError) :
    ErrorOrNil errors = none ↔ (errors.elim [] MultiError.Errors) = [] := by
  cases errors with
  | none => simp [ErrorOrNil]
  | some e =>
    cases e with
    | mk l => cases l <;> simp [ErrorOrNil]

theorem ErrorOrNil_eq_some (errors : Option MultiError) (e : MultiError)
    (h : ErrorOrNil errors = some e) : e.Errors = errors.elim [] MultiError.Errors := by
  cases errors with
  | none => simp [ErrorOrNil] at h
  | some e' =>
    simp only [ErrorOrNil] at h
    split at h
    · cases h
    · cases h; rfl

theorem multierrorAppend_Errors (errors : Option MultiError) (err : GoError) :
    (multierrorAppend errors err).elim [] MultiError.Errors
      = errors.elim [] MultiError.Errors ++ [err] := by
  cases errors <;> simp [multierrorAppend]

/-- Every result of `validateResource` carries the file name it was given. -/
theorem validateResource_FileName {W : Type} (env : Env W) (st st' : State W) (data : Bytes)
    (fileName : Str) (r : ValidationResult) (err : Option GoError)
    (h : validateResource env st data fileName = .ok ((r, err), st')) :
    r.FileName = fileName := by
  unfold validateResource at h
  simp only at h
  repeat' split at h
  all_goals first
    | (cases h; rfl)
    | (exact absurd h (by simp))

/-- The function `Validate` is its loop over the split buffer, also for the empty buffer. -/
theorem Validate_eq_loop {W : Type} (env : Env W) (st : State W) (config : Bytes)
    (fileName : Str) :
    Validate env st config fileName =
      match validateLoop env fileName (Split config (getLineBreak env.GOOS config)) st [] none
      with
      | .error p => .error p
      | .ok ((results, errors), st) => .ok ((results, ErrorOrNil errors), st) := by
  cases config with
  | nil => rfl
  | cons c cs => simp [Validate]

/-- The results of the loop: those collected before, then one per document, in order. -/
theorem validateLoop_results {W : Type} (env : Env W) (fileName : Str) :
    ∀ (bits : List Bytes) (st st' : State W) (results results' : List ValidationResult)
      (errors errors' : Option MultiError),
      validateLoop env fileName bits st results errors = .ok ((results', errors'), st') →
      ∃ new : List ValidationResult, results' = results ++ new ∧ new.length = bits.length ∧
        (∀ r ∈ new, r.FileName = fileName) ∧
        (∀ i : Nat, bits[i]? = some [] →
          new[i]? = some ({ FileName := fileName } : ValidationResult))
  | [], st, st', results, results', errors, errors', h => by
    simp only [validateLoop] at h
    cases h
    exact ⟨[], by simp⟩
  | element :: bits, st, st', results, results', errors, errors', h => by
    simp only [validateLoop] at h
    by_cases hlen : element.length > 0
    · rw [if_pos hlen] at h
      cases hv : validateResource env st element fileName with
      | error p => rw [hv] at h; cases h
      | ok out =>
        obtain ⟨⟨r, err⟩, st₁⟩ := out
        rw [hv] at h
        have hname := validateResource_FileName env st st₁ element fileName r err hv
        have hne : element ≠ [] := by
          intro e; rw [e] at hlen; simp at hlen
        cases err with
        | none =>
          obtain ⟨new, h₁, h₂, h₃, h₄⟩ :=
            validateLoop_results env fileName bits st₁ st' _ results' errors errors' h
          refine ⟨r :: new, by simp [h₁], by simp [h₂], ?_, ?_⟩
          · intro x hx
            rcases List.mem_cons.1 hx with rfl | hx
            · exact hname
            · exact h₃ x hx
          · intro i hi
            cases i with
            | zero => simp at hi; exact absurd hi hne
            | succ j => simpa using h₄ j (by simpa using hi)
        | some e =>
          obtain ⟨new, h₁, h₂, h₃, h₄⟩ :=
            validateLoop_results env fileName bits st₁ st' _ results' _ errors' h
          refine ⟨r :: new, by simp [h₁], by simp [h₂], ?_, ?_⟩
          · intro x hx
            rcases List.mem_cons.1 hx with rfl | hx
            · exact hname
            · exact h₃ x hx
          · intro i hi
            cases i with
            | zero => simp at hi; exact absurd hi hne
            | succ j => simpa using h₄ j (by simpa using hi)
    · rw [if_neg hlen] at h
      obtain ⟨new, h₁, h₂, h₃, h₄⟩ :=
        validateLoop_results env fileName bits st st' _ results' errors errors' h
      refine ⟨{ FileName := fileName } :: new, by simp [h₁], by simp [h₂], ?_, ?_⟩
      · intro x hx
        rcases List.mem_cons.1 hx with rfl | hx
        · rfl
        · exact h₃ x hx
      · intro i hi
        cases i with
        | zero => simp
        | succ j => simpa using h₄ j (by simpa using hi)

/-- The loop returns exactly when no call of `validateResource` panics. -/
theorem validateLoop_ok_iff {W : Type} (env : Env W) (fileName : Str) :
    ∀ (bits : List Bytes) (st : State W) (results : List ValidationResult)
      (errors : Option MultiError),
      (∃ out, validateLoop env fileName bits st results errors = .ok out) ↔
        ∀ o ∈ resourceOutcomes env fileName bits st, ∃ x, o = .ok x
  | [], st, results, errors => by simp [validateLoop, resourceOutcomes]
  | element :: bits, st, results, errors => by
    simp only [validateLoop, resourceOutcomes]
    by_cases hlen : element.length > 0
    · rw [if_pos hlen, if_pos hlen]
      cases hv : validateResource env st element fileName with
      | error p => simp
      | ok out =>
        obtain ⟨⟨r, err⟩, st₁⟩ := out
        cases err with
        | none =>
          simpa using validateLoop_ok_iff env fileName bits st₁ (results ++ [r]) errors
        | some e =>
          simpa using validateLoop_ok_iff env fileName bits st₁ (results ++ [r])
            (multierrorAppend errors e)
    · rw [if_neg hlen, if_neg hlen]
      exact validateLoop_ok_iff env fileName bits st _ errors

/-- The errors the loop has collected: those from before, then the error of every call of
`validateResource` that returned one, in order. -/
theorem validateLoop_errors {W : Type} (env : Env W) (fileName : Str) :
    ∀ (bits : List Bytes) (st st' : State W) (results results' : List ValidationResult)
      (errors errors' : Option MultiError),
      validateLoop env fileName bits st results errors = .ok ((results', errors'), st') →
      errors'.elim [] MultiError.Errors =
        errors.elim [] MultiError.Errors
          ++ (resourceOutcomes env fileName bits st).filterMap outcomeError
  | [], st, st', results, results', errors, errors', h => by
    simp only [validateLoop] at h
    cases h
    simp [resourceOutcomes]
  | element :: bits, st, st', results, results', errors, errors', h => by
    simp only [validateLoop] at h
    simp only [resourceOutcomes]
    by_cases hlen : element.length > 0
    · rw [if_pos hlen] at h
      rw [if_pos hlen]
      cases hv : validateResource env st element fileName with
      | error p => rw [hv] at h; cases h
      | ok out =>
        obtain ⟨⟨r, err⟩, st₁⟩ := out
        rw [hv] at h
        cases err with
        | none =>
          have ih := validateLoop_errors env fileName bits st₁ st' _ results' errors errors' h
          simpa [outcomeError] using ih
        | some e =>
          have ih := validateLoop_errors env fileName bits st₁ st' _ results' _ errors' h
          rw [multierrorAppend_Errors] at ih
          simpa [outcomeError] using ih
    · rw [if_neg hlen] at h
      rw [if_neg hlen]
      exact validateLoop_errors env fileName bits st st' _ results' errors errors' h

/-- The errors and the final state of the loop are those of the loop over the non-empty
documents alone. -/
theorem validateLoop_filter {W : Type} (env : Env W) (fileName : Str) :
    ∀ (bits : List Bytes) (st : State W) (results results' : List ValidationResult)
      (errors : Option MultiError),
      (validateLoop env fileName bits st results errors).map (fun r => (r.1.2, r.2)) =
        (validateLoop env fileName (bits.filter (fun b => decide (b.length > 0))) st results'
          errors).map (fun r => (r.1.2, r.2))
  | [], st, results, results', errors => by simp [validateLoop, Except.map]
  | element :: bits, st, results, results', errors => by
    by_cases hlen : element.length > 0
    · have hf : (element :: bits).filter (fun b => decide (b.length > 0))
          = element :: bits.filter (fun b => decide (b.length > 0)) := by
        simp [List.filter, hlen]
      rw [hf]
      simp only [validateLoop]
      rw [if_pos hlen, if_pos hlen]
      cases hv : validateResource env st element fileName with
      | error p => rfl
      | ok out =>
        obtain ⟨⟨r, err⟩, st₁⟩ := out
        cases err with
        | none => exact validateLoop_filter env fileName bits st₁ _ _ errors
        | some e => exact validateLoop_filter env fileName bits st₁ _ _ _
    · have hf : (element :: bits).filter (fun b => decide (b.length > 0))
          = bits.filter (fun b => decide (b.length > 0)) := by
        simp [List.filter, hlen]
      rw [hf]
      simp only [validateLoop]
      rw [if_neg hlen]
      exact validateLoop_filter env fileName bits st _ _ errors

/-- The number of pieces of a split is the number of separator occurrences plus one. -/
theorem splitFrom_length {α : Type} [DecidableEq α] (sep : List α) :
    ∀ (s : List α) (k : Nat), (splitFrom sep k s).length = countFrom sep k s + 1
  | [], k => by cases k <;> simp [splitFrom, countFrom]
  | _ :: cs, k + 1 => by simpa [splitFrom, countFrom] using splitFrom_length sep cs k
  | c :: cs, 0 => by
    simp only [splitFrom, countFrom]
    split
    · simp [splitFrom_length sep cs (sep.length - 1)]
    · have ih := splitFrom_length sep cs 0
      split
      · rename_i h; exact absurd h (splitFrom_ne_nil _ _ _)
      · rename_i h; rw [h] at ih; simpa using ih

theorem Split_length {α : Type} [DecidableEq α] (s sep : List α) :
    (Split s sep).length = Count s sep + 1 :=
  splitFrom_length sep s 0

/-- Handling one more empty document after `bits`: the loop appends a placeholder to its
results and leaves the errors and the state as they are. -/
theorem validateLoop_append_empty {W : Type} (env : Env W) (fileName : Str) :
    ∀ (bits : List Bytes) (st : State W) (results : List ValidationResult)
      (errors : Option MultiError),
      validateLoop env fileName (bits ++ [[]]) st results errors =
        (validateLoop env fileName bits st results errors).map
          (fun r => ((r.1.1 ++ [{ FileName := fileName }], r.1.2), r.2))
  | [], st, results, errors => by simp [validateLoop, Except.map]
  | element :: bits, st, results, errors => by
    simp only [List.cons_append, validateLoop]
    by_cases hlen : element.length > 0
    · rw [if_pos hlen, if_pos hlen]
      cases hv : validateResource env st element fileName with
      | error p => rfl
      | ok out =>
        obtain ⟨⟨r, err⟩, st₁⟩ := out
        cases err with
        | none => exact validateLoop_append_empty env fileName bits st₁ _ errors
        | some e => exact validateLoop_append_empty env fileName bits st₁ _ _
    · rw [if_neg hlen, if_neg hlen]
      exact validateLoop_append_empty env fileName bits st _ errors

/-- C6 (failing input): the buffer holds two documents, the first with `kind: 5`; the
assertion `.(string)` in `getKind` panics on it, so `Validate` returns no result list at all,
although the second document alone validates to one result. -/
theorem Validate_panics_on_non_string_kind :
    Split (bytesOf "kind: 5\n---\nkind: Service\napiVersion: v1")
        (getLineBreak exampleEnv.GOOS (bytesOf "kind: 5\n---\nkind: Service\napiVersion: v1"))
      = [bytesOf "kind: 5", bytesOf "kind: Service\napiVersion: v1"] ∧
    exampleEnv.yamlUnmarshal (bytesOf "kind: 5")
      = some (.map [(.str "kind".toList, .scalar (.int 5))]) ∧
    Validate exampleEnv exampleState (bytesOf "kind: 5\n---\nkind: Service\napiVersion: v1")
        "f.yaml".toList
      = .error .interfaceConversion ∧
    (Validate exampleEnv exampleState (bytesOf "kind: Service\napiVersion: v1")
        "f.yaml".toList).map (fun r => r.1)
      = .ok ([{ FileName := "f.yaml".toList, Kind := "Service".toList,
                APIVersion := "v1".toList, Errors := [] }], none) :=
  ⟨rfl, rfl, rfl, rfl⟩

/-- Whenever `Validate` returns, it returns one result per span of the split buffer (the
number of separator occurrences plus one), each carrying the file name. -/
theorem Validate_results_of_ok {W : Type} (env : Env W) (st st' : State W) (config : Bytes)
    (fileName : Str) (results : List ValidationResult) (errors : Option MultiError)
    (h : Validate env st config fileName = .ok ((results, errors), st')) :
    results.length = Count config (getLineBreak env.GOOS config) + 1 ∧
      results.length = (Split config (getLineBreak env.GOOS config)).length ∧
      (∀ r ∈ results, r.FileName = fileName) ∧
      (∀ i : Nat, (Split config (getLineBreak env.GOOS config))[i]? = some [] →
        results[i]? = some ({ FileName := fileName } : ValidationResult)) := by
  rw [Validate_eq_loop] at h
  cases hl : validateLoop env fileName (Split config (getLineBreak env.GOOS config)) st [] none
    with
  | error p => rw [hl] at h; cases h
  | ok out =>
    obtain ⟨⟨rs, es⟩, st₁⟩ := out
    rw [hl] at h
    simp only [Except.ok.injEq, Prod.mk.injEq] at h
    obtain ⟨⟨hr, _⟩, _⟩ := h
    obtain ⟨new, h₁, h₂, h₃, h₄⟩ :=
      validateLoop_results env fileName _ st st₁ [] rs none es hl
    simp only [List.nil_append] at h₁
    subst h₁
    subst hr
    exact ⟨by rw [h₂, Split_length], h₂, h₃, h₄⟩

/-- C7: the combined error of `Validate` is nil exactly when every call of `validateResource`
on a non-empty span returned, and returned no error; a non-nil combined error holds the error
of every such call that returned one, in document order. -/
theorem Validate_combined_error {W : Type} (env : Env W) (st : State W) (config : Bytes)
    (fileName : Str) :
    ((∃ results st', Validate env st config fileName = .ok ((results, none), st')) ↔
      ∀ o ∈ resourceOutcomes env fileName (Split config (getLineBreak env.GOOS config)) st,
        ∃ r, o = .ok (r, none)) ∧
    (∀ results e st', Validate env st config fileName = .ok ((results, some e), st') →
      e.Errors =
        (resourceOutcomes env fileName (Split config (getLineBreak env.GOOS config))
          st).filterMap outcomeError) := by
  rw [Validate_eq_loop]
  constructor
  · constructor
    · rintro ⟨results, st', h⟩
      cases hl : validateLoop env fileName (Split config (getLineBreak env.GOOS config)) st []
        none with
      | error p => rw [hl] at h; cases h
      | ok out =>
        obtain ⟨⟨rs, es⟩, st₁⟩ := out
        rw [hl] at h
        simp only [Except.ok.injEq, Prod.mk.injEq] at h
        obtain ⟨⟨_, hnone⟩, _⟩ := h
        have herr := validateLoop_errors env fileName _ st st₁ [] rs none es hl
        rw [(ErrorOrNil_eq_none_iff es).1 hnone] at herr
        have hall := (validateLoop_ok_iff env fileName _ st [] none).1 ⟨_, hl⟩
        intro o ho
        obtain ⟨⟨r, err⟩, rfl⟩ := hall o ho
        have := List.filterMap_eq_nil_iff.1 (by simpa using herr.symm) _ ho
        simp only [outcomeError] at this
        subst this
        exact ⟨r, rfl⟩
    · intro hall
      obtain ⟨out, hl⟩ := (validateLoop_ok_iff env fileName _ st [] none).2
        (fun o ho => (hall o ho).elim fun r h => ⟨(r, none), h⟩)
      obtain ⟨⟨rs, es⟩, st₁⟩ := out
      have herr := validateLoop_errors env fileName _ st st₁ [] rs none es hl
      have hnil : (resourceOutcomes env fileName
          (Split config (getLineBreak env.GOOS config)) st).filterMap outcomeError = [] := by
        rw [List.filterMap_eq_nil_iff]
        intro o ho
        obtain ⟨r, rfl⟩ := hall o ho
        rfl
      rw [hnil] at herr
      refine ⟨rs, st₁, ?_⟩
      rw [hl]
      simp only [Except.ok.injEq, Prod.mk.injEq, and_true, true_and]
      exact (ErrorOrNil_eq_none_iff es).2 (by simpa using herr)
  · intro results e st' h
    cases hl : validateLoop env fileName (Split config (getLineBreak env.GOOS config)) st []
      none with
    | error p => rw [hl] at h; cases h
    | ok out =>
      obtain ⟨⟨rs, es⟩, st₁⟩ := out
      rw [hl] at h
      simp only [Except.ok.injEq, Prod.mk.injEq] at h
      obtain ⟨⟨_, hsome⟩, _⟩ := h
      have herr := validateLoop_errors env fileName _ st st₁ [] rs none es hl
      rw [ErrorOrNil_eq_some es e hsome, herr]
      simp

/-- C7 (example): of four spans, the second lacks `kind` and the third is malformed; the
combined error holds both errors, in this order. -/
theorem Validate_combined_error_witness :
    (Validate exampleEnv exampleState
        (bytesOf "kind: Service\napiVersion: v1\n---\napiVersion: v1\n---\na: [\n---\n")
        "f.yaml".toList).map (fun r => r.1.2)
      = .ok (some { Errors := [{ msg := "Missing kind key".toList },
          { msg := "Failed to decode YAML from f.yaml".toList }] }) ∧
    ([{ msg := "Missing kind key".toList },
        { msg := "Failed to decode YAML from f.yaml".toList }] : List GoError)
      = (resourceOutcomes exampleEnv "f.yaml".toList
          (Split (bytesOf "kind: Service\napiVersion: v1\n---\napiVersion: v1\n---\na: [\n---\n")
            (getLineBreak exampleEnv.GOOS
              (bytesOf "kind: Service\napiVersion: v1\n---\napiVersion: v1\n---\na: [\n---\n")))
          exampleState).filterMap outcomeError :=
  ⟨rfl,
    (Validate_combined_error exampleEnv exampleState
      (bytesOf "kind: Service\napiVersion: v1\n---\napiVersion: v1\n---\na: [\n---\n")
      "f.yaml".toList).2 _ { Errors := [{ msg := "Missing kind key".toList },
          { msg := "Failed to decode YAML from f.yaml".toList }] } _ rfl⟩

/-- C8: for the empty buffer `Validate` returns one result with the file name, empty `Kind`,
empty `APIVersion` and no `Errors`, and a nil error; nothing else happens. -/
theorem Validate_empty_buffer {W : Type} (env : Env W) (st : State W) (fileName : Str) :
    Validate env st [] fileName =
      .ok (([{ FileName := fileName, Kind := [], APIVersion := [], Errors := [] }], none), st) :=
  rfl

/-- C9: when `Validate` returns, every empty span of the split buffer stands at its own
position in the result list as a placeholder with the file name, empty `Kind`, empty
`APIVersion` and no `Errors`; the loop step for an empty span, from whatever the spans before
it have led to, appends that placeholder and changes neither the collected errors nor the
state with its log of capability invocations; and the combined error and the final state of
`Validate` are those of a run over the non-empty spans alone. -/
theorem Validate_empty_span {W : Type} (env : Env W) (st : State W) (config : Bytes)
    (fileName : Str) :
    (∀ results errors st', Validate env st config fileName = .ok ((results, errors), st') →
      results.length = (Split config (getLineBreak env.GOOS config)).length ∧
      ∀ i : Nat, (Split config (getLineBreak env.GOOS config))[i]? = some [] →
        results[i]? = some { FileName := fileName, Kind := [], APIVersion := [], Errors := [] }) ∧
    (∀ before after : List Bytes,
      Split config (getLineBreak env.GOOS config) = before ++ [] :: after →
      ∀ (st₀ : State W) (results : List ValidationResult) (errors : Option MultiError),
        validateLoop env fileName (before ++ [[]]) st₀ results errors =
          (validateLoop env fileName before st₀ results errors).map
            (fun r => ((r.1.1 ++ [{ FileName := fileName, Kind := [], APIVersion := [],
                                    Errors := [] }], r.1.2), r.2))) ∧
    (Validate env st config fileName).map (fun r => (r.1.2, r.2)) =
      (validateLoop env fileName
        ((Split config (getLineBreak env.GOOS config)).filter (fun b => decide (b.length > 0)))
        st [] none).map (fun r => (ErrorOrNil r.1.2, r.2)) := by
  refine ⟨?_, ?_, ?_⟩
  · intro results errors st' h
    have := Validate_results_of_ok env st st' config fileName results errors h
    exact ⟨this.2.1, this.2.2.2⟩
  · intro before _ _ st₀ results errors
    exact validateLoop_append_empty env fileName before st₀ results errors
  · have hf := validateLoop_filter env fileName (Split config (getLineBreak env.GOOS config)) st
      [] [] none
    rw [Validate_eq_loop]
    cases hl : validateLoop env fileName (Split config (getLineBreak env.GOOS config)) st []
      none with
    | error p =>
      rw [hl] at hf
      cases hr : validateLoop env fileName
          ((Split config (getLineBreak env.GOOS config)).filter
            (fun b => decide (b.length > 0))) st [] none with
      | error q => rw [hr] at hf; simpa [Except.map] using hf
      | ok out => rw [hr] at hf; simp [Except.map] at hf
    | ok out =>
      rw [hl] at hf
      cases hr : validateLoop env fileName
          ((Split config (getLineBreak env.GOOS config)).filter
            (fun b => decide (b.length > 0))) st [] none with
      | error q => rw [hr] at hf; simp [Except.map] at hf
      | ok out' =>
        rw [hr] at hf
        simp only [Except.map, Except.ok.injEq, Prod.mk.injEq] at hf ⊢
        obtain ⟨h₁, h₂⟩ := hf
        exact ⟨by rw [h₁], h₂⟩

/-- C9 (example): the empty span after a trailing separator is the fourth result. -/
theorem Validate_empty_span_witness :
    (Split (bytesOf "kind: Service\napiVersion: v1\n---\napiVersion: v1\n---\na: [\n---\n")
        (getLineBreak exampleEnv.GOOS
          (bytesOf "kind: Service\napiVersion: v1\n---\napiVersion: v1\n---\na: [\n---\n")))[3]?
      = some [] ∧
    ∀ results errors st',
      Validate exampleEnv exampleState
          (bytesOf "kind: Service\napiVersion: v1\n---\napiVersion: v1\n---\na: [\n---\n")
          "f.yaml".toList = .ok ((results, errors), st') →
      results[3]?
        = some { FileName := "f.yaml".toList, Kind := [], APIVersion := [], Errors := [] } :=
  ⟨rfl, fun results errors st' h =>
    ((Validate_empty_span exampleEnv exampleState _ _).1 results errors st' h).2 3 rfl⟩

/-- C10: a document that decodes, and whose normalized root is not a non-empty mapping, gives
a result with the file name, empty `Kind`, empty `APIVersion` and no `Errors`, and a nil error;
the state is left as it was but for the logged call of the decoder, so the schema capability
is not invoked. -/
theorem validateResource_empty_resource {W : Type} (env : Env W) (st : State W) (data : Bytes)
    (fileName : Str) (spec body : Value) (hdecode : env.yamlUnmarshal data = some spec)
    (hnormal : convertToStringKeys spec = .ok body)
    (hroot : ∀ kvs, body = .stringMap kvs → kvs = []) :
    validateResource env st data fileName =
      .ok (({ FileName := fileName, Kind := [], APIVersion := [], Errors := [] }, none),
        { st with calls := st.calls ++ [Call.yamlUnmarshal data] }) := by
  unfold validateResource
  simp only [hdecode, hnormal]
  by_cases hnil : body.isNil = true
  · simp [hnil]
  · have hlen : (asStringMap body).length = 0 := by
      cases body with
      | stringMap kvs => simp [asStringMap, hroot kvs rfl]
      | scalar s => rfl
      | seq xs => rfl
      | map kvs => rfl
    simp [hnil, hlen]

/-- C10 (witness): the document `{}` decodes to the empty mapping. -/
theorem validateResource_empty_resource_witness :
    exampleEnv.yamlUnmarshal (bytesOf "{}") = some (.map []) ∧
    convertToStringKeys (.map []) = .ok (.stringMap []) ∧
    (∀ kvs, Value.stringMap [] = .stringMap kvs → kvs = []) ∧
    validateResource exampleEnv exampleState (bytesOf "{}") "f.yaml".toList =
      .ok (({ FileName := "f.yaml".toList, Kind := [], APIVersion := [], Errors := [] }, none),
        { globals := { Version := [], SchemaLocation := [] }, world := 0,
          calls := [Call.yamlUnmarshal (bytesOf "{}")] }) :=
  ⟨rfl, rfl, fun _ h => (Value.stringMap.inj h).symm,
    validateResource_empty_resource exampleEnv exampleState (bytesOf "{}") "f.yaml".toList
      (.map []) (.stringMap []) rfl rfl (fun _ h => (Value.stringMap.inj h).symm)⟩

/-! ## Facts about the extraction of `kind` and `apiVersion` -/

/-- The function `validateResource` on a document that decodes and normalizes to a non-empty
`map[string]interface{}`: what is left is the extraction of the two fields and the schema. -/
theorem validateResource_of_mapping {W : Type} (env : Env W) (st : State W) (data : Bytes)
    (fileName : Str) (spec : Value) (kvs : List (Str × Value))
    (hdecode : env.yamlUnmarshal data = some spec)
    (hnormal : convertToStringKeys spec = .ok (.stringMap kvs)) (hne : kvs ≠ []) :
    validateResource env st data fileName =
      match getKind (.stringMap kvs) with
      | .error p => .error p
      | .ok (_, some err) =>
        .ok ((ValidationResult.mk fileName [] [] [], some err),
          { st with calls := st.calls ++ [Call.yamlUnmarshal data] })
      | .ok (kind, none) =>
        match getAPIVersion (.stringMap kvs) with
        | .error p => .error p
        | .ok (_, some err) =>
          .ok ((ValidationResult.mk fileName kind [] [], some err),
            { st with calls := st.calls ++ [Call.yamlUnmarshal data] })
        | .ok (apiVersion, none) =>
          match getSchema env.ToLower env.schema_location st.globals kind apiVersion with
          | .error p => .error p
          | .ok (schema, g) =>
            match (env.gojsonschemaValidate st.world schema (.stringMap kvs)).1 with
            | .error err =>
              .ok ((ValidationResult.mk fileName kind apiVersion [],
                  some { msg := "Failed to load schema from ".toList ++ schema
                    ++ ": ".toList ++ err.msg }),
                { globals := g,
                  world := (env.gojsonschemaValidate st.world schema (.stringMap kvs)).2,
                  calls := st.calls ++ [Call.yamlUnmarshal data]
                    ++ [Call.gojsonschemaValidate schema (.stringMap kvs)] })
            | .ok errors =>
              .ok ((ValidationResult.mk fileName kind apiVersion errors, none),
                { globals := g,
                  world := (env.gojsonschemaValidate st.world schema (.stringMap kvs)).2,
                  calls := st.calls ++ [Call.yamlUnmarshal data]
                    ++ [Call.gojsonschemaValidate schema (.stringMap kvs)] }) := by
  have hlen : ¬ (asStringMap (.stringMap kvs)).length = 0 := by
    cases kvs with
    | nil => exact absurd rfl hne
    | cons a l => simp [asStringMap]
  have hnil : (Value.stringMap kvs).isNil = false := rfl
  obtain ⟨ToLower, GOOS, schema_location, yamlUnmarshal, gojsonschemaValidate⟩ := env
  simp only at hdecode
  unfold validateResource
  simp only [hdecode, hnormal, hnil, if_neg hlen, Bool.false_eq_true, if_false]
  cases getKind (.stringMap kvs) with
  | error p => rfl
  | ok out =>
    obtain ⟨kind, err⟩ := out
    cases err with
    | some e => rfl
    | none =>
      simp only
      cases getAPIVersion (.stringMap kvs) with
      | error p => rfl
      | ok out =>
        obtain ⟨apiVersion, err⟩ := out
        cases err with
        | some e => rfl
        | none =>
          simp only
          cases getSchema ToLower schema_location st.globals kind apiVersion with
          | error p => rfl
          | ok out =>
            obtain ⟨schema, g⟩ := out
            simp only
            cases hcap : gojsonschemaValidate st.world schema (.stringMap kvs) with
            | mk res w =>
              cases res with
              | error err => rfl
              | ok errors =>
                simp only
                by_cases he : errors.length = 0
                · rw [if_pos he]
                  have : errors = [] := List.length_eq_zero.1 he
                  subst this
                  rfl
                · rw [if_neg he]

theorem getKind_absent (kvs : List (Str × Value)) (h : kvs.lookup "kind".toList = none) :
    getKind (.stringMap kvs) = .ok ([], some { msg := "Missing kind key".toList }) := by
  simp only [getKind, asStringMap, h]

theorem getKind_null (kvs : List (Str × Value))
    (h : kvs.lookup "kind".toList = some (.scalar .null)) :
    getKind (.stringMap kvs) = .ok ([], some { msg := "Missing kind value".toList }) := by
  simp only [getKind, asStringMap, h]

theorem getKind_string (kvs : List (Str × Value)) (kind : Str)
    (h : kvs.lookup "kind".toList = some (.scalar (.str kind))) :
    getKind (.stringMap kvs) = .ok (kind, none) := by
  simp only [getKind, asStringMap, h]

/-- A `kind` that is present, not nil and no string makes `getKind` panic. -/
theorem getKind_other (kvs : List (Str × Value)) (v : Value)
    (h : kvs.lookup "kind".toList = some v) (hnull : v ≠ .scalar .null)
    (hstr : ∀ s, v ≠ .scalar (.str s)) :
    getKind (.stringMap kvs) = .error .interfaceConversion := by
  cases v with
  | scalar s =>
    cases s with
    | null => exact absurd rfl hnull
    | str s => exact absurd rfl (hstr s)
    | bool b => simp only [getKind, asStringMap, h]
    | int i => simp only [getKind, asStringMap, h]
    | float bits => simp only [getKind, asStringMap, h]
  | seq xs => simp only [getKind, asStringMap, h]
  | map kvs => simp only [getKind, asStringMap, h]
  | stringMap kvs => simp only [getKind, asStringMap, h]

theorem getAPIVersion_absent (kvs : List (Str × Value))
    (h : kvs.lookup "apiVersion".toList = none) :
    getAPIVersion (.stringMap kvs)
      = .ok ([], some { msg := "Missing apiVersion key".toList }) := by
  simp only [getAPIVersion, asStringMap, h]

theorem getAPIVersion_null (kvs : List (Str × Value))
    (h : kvs.lookup "apiVersion".toList = some (.scalar .null)) :
    getAPIVersion (.stringMap kvs)
      = .ok ([], some { msg := "Missing apiVersion value".toList }) := by
  simp only [getAPIVersion, asStringMap, h]

theorem getAPIVersion_string (kvs : List (Str × Value)) (apiVersion : Str)
    (h : kvs.lookup "apiVersion".toList = some (.scalar (.str apiVersion))) :
    getAPIVersion (.stringMap kvs) = .ok (apiVersion, none) := by
  simp only [getAPIVersion, asStringMap, h]

/-- An `apiVersion` that is present, not nil and no string makes `getAPIVersion` panic. -/
theorem getAPIVersion_other (kvs : List (Str × Value)) (v : Value)
    (h : kvs.lookup "apiVersion".toList = some v) (hnull : v ≠ .scalar .null)
    (hstr : ∀ s, v ≠ .scalar (.str s)) :
    getAPIVersion (.stringMap kvs) = .error .interfaceConversion := by
  cases v with
  | scalar s =>
    cases s with
    | null => exact absurd rfl hnull
    | str s => exact absurd rfl (hstr s)
    | bool b => simp only [getAPIVersion, asStringMap, h]
    | int i => simp only [getAPIVersion, asStringMap, h]
    | float bits => simp only [getAPIVersion, asStringMap, h]
  | seq xs => simp only [getAPIVersion, asStringMap, h]
  | map kvs => simp only [getAPIVersion, asStringMap, h]
  | stringMap kvs => simp only [getAPIVersion, asStringMap, h]

/-- The two functions return either no error or one of their own two errors. -/
theorem getKind_error (body : Value) (kind : Str) (e : GoError)
    (h : getKind body = .ok (kind, some e)) :
    kind = [] ∧ (e.msg = "Missing kind key".toList ∨ e.msg = "Missing kind value".toList) := by
  simp only [getKind] at h
  split at h
  · simp only [Except.ok.injEq, Prod.mk.injEq, Option.some.injEq] at h
    obtain ⟨rfl, rfl⟩ := h; exact ⟨rfl, Or.inl rfl⟩
  · simp only [Except.ok.injEq, Prod.mk.injEq, Option.some.injEq] at h
    obtain ⟨rfl, rfl⟩ := h; exact ⟨rfl, Or.inr rfl⟩
  · simp only [Except.ok.injEq, Prod.mk.injEq] at h
    exact absurd h.2 (by simp)
  · exact absurd h (by simp)

theorem getAPIVersion_error (body : Value) (apiVersion : Str) (e : GoError)
    (h : getAPIVersion body = .ok (apiVersion, some e)) :
    apiVersion = [] ∧
      (e.msg = "Missing apiVersion key".toList ∨ e.msg = "Missing apiVersion value".toList) := by
  simp only [getAPIVersion] at h
  split at h
  · simp only [Except.ok.injEq, Prod.mk.injEq, Option.some.injEq] at h
    obtain ⟨rfl, rfl⟩ := h; exact ⟨rfl, Or.inl rfl⟩
  · simp only [Except.ok.injEq, Prod.mk.injEq, Option.some.injEq] at h
    obtain ⟨rfl, rfl⟩ := h; exact ⟨rfl, Or.inr rfl⟩
  · simp only [Except.ok.injEq, Prod.mk.injEq] at h
    exact absurd h.2 (by simp)
  · exact absurd h (by simp)

/-- An error of `getKind` on a mapping comes from an absent or nil `kind`. -/
theorem getKind_error_lookup (kvs : List (Str × Value)) (kind : Str) (e : GoError)
    (h : getKind (.stringMap kvs) = .ok (kind, some e)) :
    kvs.lookup "kind".toList = none ∨ kvs.lookup "kind".toList = some (.scalar .null) := by
  cases hk : kvs.lookup "kind".toList with
  | none => exact Or.inl rfl
  | some v =>
    by_cases hnull : v = .scalar .null
    · subst hnull; exact Or.inr rfl
    · by_cases hstr : ∃ s, v = .scalar (.str s)
      · obtain ⟨s, rfl⟩ := hstr
        rw [getKind_string kvs s hk] at h
        simp at h
      · rw [getKind_other kvs v hk hnull (fun s hs => hstr ⟨s, hs⟩)] at h
        cases h

/-- An error of `getAPIVersion` on a mapping comes from an absent or nil `apiVersion`. -/
theorem getAPIVersion_error_lookup (kvs : List (Str × Value)) (apiVersion : Str) (e : GoError)
    (h : getAPIVersion (.stringMap kvs) = .ok (apiVersion, some e)) :
    kvs.lookup "apiVersion".toList = none
      ∨ kvs.lookup "apiVersion".toList = some (.scalar .null) := by
  cases hk : kvs.lookup "apiVersion".toList with
  | none => exact Or.inl rfl
  | some v =>
    by_cases hnull : v = .scalar .null
    · subst hnull; exact Or.inr rfl
    · by_cases hstr : ∃ s, v = .scalar (.str s)
      · obtain ⟨s, rfl⟩ := hstr
        rw [getAPIVersion_string kvs s hk] at h
        simp at h
      · rw [getAPIVersion_other kvs v hk hnull (fun s hs => hstr ⟨s, hs⟩)] at h
        cases h

/-- Where an error of `validateResource` on a non-empty mapping comes from: `getKind`,
`getAPIVersion` after a kind was found, or the schema capability. -/
theorem validateResource_error_source {W : Type} (env : Env W) (st st' : State W)
    (data : Bytes) (fileName : Str) (spec : Value) (kvs : List (Str × Value))
    (r : ValidationResult) (e : GoError)
    (hdecode : env.yamlUnmarshal data = some spec)
    (hnormal : convertToStringKeys spec = .ok (.stringMap kvs)) (hne : kvs ≠ [])
    (h : validateResource env st data fileName = .ok ((r, some e), st')) :
    (∃ k, getKind (.stringMap kvs) = .ok (k, some e)) ∨
    (∃ k a, getKind (.stringMap kvs) = .ok (k, none) ∧
      getAPIVersion (.stringMap kvs) = .ok (a, some e)) ∨
    (∃ t, e.msg = 'F' :: t) := by
  rw [validateResource_of_mapping env st data fileName spec kvs hdecode hnormal hne] at h
  cases hk : getKind (.stringMap kvs) with
  | error p => rw [hk] at h; cases h
  | ok out =>
    obtain ⟨kind, err⟩ := out
    rw [hk] at h
    cases err with
    | some e' =>
      simp only [Except.ok.injEq, Prod.mk.injEq, Option.some.injEq] at h
      obtain ⟨⟨_, rfl⟩, _⟩ := h
      exact Or.inl ⟨kind, rfl⟩
    | none =>
      simp only at h
      cases ha : getAPIVersion (.stringMap kvs) with
      | error p => rw [ha] at h; cases h
      | ok out =>
        obtain ⟨apiVersion, err⟩ := out
        rw [ha] at h
        cases err with
        | some e' =>
          simp only [Except.ok.injEq, Prod.mk.injEq, Option.some.injEq] at h
          obtain ⟨⟨_, rfl⟩, _⟩ := h
          exact Or.inr (Or.inl ⟨kind, apiVersion, rfl, rfl⟩)
        | none =>
          simp only at h
          rw [getSchema_ok] at h
          simp only at h
          cases hc : (env.gojsonschemaValidate st.world _ (.stringMap kvs)).1 with
          | error err =>
            rw [hc] at h
            simp only [Except.ok.injEq, Prod.mk.injEq, Option.some.injEq] at h
            obtain ⟨⟨_, rfl⟩, _⟩ := h
            exact Or.inr (Or.inr ⟨_, rfl⟩)
          | ok errors =>
            rw [hc] at h
            simp at h

/-- C11: on a document whose normalized root is a non-empty mapping, `validateResource` fails
with a missing-kind error exactly when the key `kind` is absent or its value is nil; when
`kind` is a string it fails with a missing-apiVersion error exactly when the key `apiVersion`
is absent or nil, and the result then carries the kind, an empty `APIVersion` and no `Errors`;
when both are strings they come back unchanged in `Kind` and `APIVersion`. The kind is looked
at first, and a failed extraction leaves the state as it was but for the logged decoder call,
so the schema capability is not invoked. -/
theorem validateResource_missing_fields {W : Type} (env : Env W) (st : State W) (data : Bytes)
    (fileName : Str) (spec : Value) (kvs : List (Str × Value))
    (hdecode : env.yamlUnmarshal data = some spec)
    (hnormal : convertToStringKeys spec = .ok (.stringMap kvs)) (hne : kvs ≠ []) :
    (kvs.lookup "kind".toList = none →
      validateResource env st data fileName =
        .ok (({ FileName := fileName, Kind := [], APIVersion := [], Errors := [] },
            some { msg := "Missing kind key".toList }),
          { st with calls := st.calls ++ [Call.yamlUnmarshal data] })) ∧
    (kvs.lookup "kind".toList = some (.scalar .null) →
      validateResource env st data fileName =
        .ok (({ FileName := fileName, Kind := [], APIVersion := [], Errors := [] },
            some { msg := "Missing kind value".toList }),
          { st with calls := st.calls ++ [Call.yamlUnmarshal data] })) ∧
    (∀ kind : Str, kvs.lookup "kind".toList = some (.scalar (.str kind)) →
      (kvs.lookup "apiVersion".toList = none →
        validateResource env st data fileName =
          .ok (({ FileName := fileName, Kind := kind, APIVersion := [], Errors := [] },
              some { msg := "Missing apiVersion key".toList }),
            { st with calls := st.calls ++ [Call.yamlUnmarshal data] })) ∧
      (kvs.lookup "apiVersion".toList = some (.scalar .null) →
        validateResource env st data fileName =
          .ok (({ FileName := fileName, Kind := kind, APIVersion := [], Errors := [] },
              some { msg := "Missing apiVersion value".toList }),
            { st with calls := st.calls ++ [Call.yamlUnmarshal data] })) ∧
      (∀ apiVersion : Str,
        kvs.lookup "apiVersion".toList = some (.scalar (.str apiVersion)) →
        ∃ (errors : List ResultError) (err : Option GoError) (st' : State W),
          validateResource env st data fileName =
            .ok (({ FileName := fileName, Kind := kind, APIVersion := apiVersion,
                    Errors := errors }, err), st') ∧
          ∀ e, err = some e →
            e.msg ∉ ["Missing kind key".toList, "Missing kind value".toList,
              "Missing apiVersion key".toList, "Missing apiVersion value".toList])) ∧
    ((∃ r e st', validateResource env st data fileName = .ok ((r, some e), st') ∧
        (e.msg = "Missing kind key".toList ∨ e.msg = "Missing kind value".toList)) ↔
      (kvs.lookup "kind".toList = none ∨ kvs.lookup "kind".toList = some (.scalar .null))) ∧
    (∀ kind : Str, kvs.lookup "kind".toList = some (.scalar (.str kind)) →
      ((∃ r e st', validateResource env st data fileName = .ok ((r, some e), st') ∧
          (e.msg = "Missing apiVersion key".toList
            ∨ e.msg = "Missing apiVersion value".toList)) ↔
        (kvs.lookup "apiVersion".toList = none
          ∨ kvs.lookup "apiVersion".toList = some (.scalar .null)))) := by
  have key := validateResource_of_mapping env st data fileName spec kvs hdecode hnormal hne
  have hschema : ∀ kind apiVersion : Str,
      ∃ (errors : List ResultError) (err : Option GoError) (st' : State W),
        (match getSchema env.ToLower env.schema_location st.globals kind apiVersion with
          | .error p => .error p
          | .ok (schema, g) =>
            match (env.gojsonschemaValidate st.world schema (.stringMap kvs)).1 with
            | .error err =>
              .ok ((ValidationResult.mk fileName kind apiVersion [],
                  some { msg := "Failed to load schema from ".toList ++ schema
                    ++ ": ".toList ++ err.msg }),
                { globals := g,
                  world := (env.gojsonschemaValidate st.world schema (.stringMap kvs)).2,
                  calls := st.calls ++ [Call.yamlUnmarshal data]
                    ++ [Call.gojsonschemaValidate schema (.stringMap kvs)] })
            | .ok errors =>
              .ok ((ValidationResult.mk fileName kind apiVersion errors, none),
                { globals := g,
                  world := (env.gojsonschemaValidate st.world schema (.stringMap kvs)).2,
                  calls := st.calls ++ [Call.yamlUnmarshal data]
                    ++ [Call.gojsonschemaValidate schema (.stringMap kvs)] }))
          = (.ok ((ValidationResult.mk fileName kind apiVersion errors, err), st')
              : Except Panic ((ValidationResult × Option GoError) × State W)) ∧
        ∀ e, err = some e → ∃ t, e.msg = 'F' :: t := by
    intro kind apiVersion
    rw [getSchema_ok]
    simp only
    cases (env.gojsonschemaValidate st.world _ (.stringMap kvs)).1 with
    | error err => exact ⟨_, _, _, rfl, fun e he => by cases he; exact ⟨_, rfl⟩⟩
    | ok errors => exact ⟨_, _, _, rfl, fun e he => by cases he⟩
  have both : ∀ kind apiVersion : Str,
      kvs.lookup "kind".toList = some (.scalar (.str kind)) →
      kvs.lookup "apiVersion".toList = some (.scalar (.str apiVersion)) →
      ∃ (errors : List ResultError) (err : Option GoError) (st' : State W),
        validateResource env st data fileName =
          .ok ((ValidationResult.mk fileName kind apiVersion errors, err), st') ∧
        ∀ e, err = some e → ∃ t, e.msg = 'F' :: t := by
    intro kind apiVersion hk ha
    rw [key, getKind_string kvs kind hk]
    simp only
    rw [getAPIVersion_string kvs apiVersion ha]
    exact hschema kind apiVersion
  have absent : kvs.lookup "kind".toList = none →
      validateResource env st data fileName =
        .ok ((ValidationResult.mk fileName [] [] [], some { msg := "Missing kind key".toList }),
          { st with calls := st.calls ++ [Call.yamlUnmarshal data] }) := by
    intro hk
    rw [key, getKind_absent kvs hk]
  have null : kvs.lookup "kind".toList = some (.scalar .null) →
      validateResource env st data fileName =
        .ok ((ValidationResult.mk fileName [] [] [], some { msg := "Missing kind value".toList }),
          { st with calls := st.calls ++ [Call.yamlUnmarshal data] }) := by
    intro hk
    rw [key, getKind_null kvs hk]
  have apiAbsent : ∀ kind : Str, kvs.lookup "kind".toList = some (.scalar (.str kind)) →
      kvs.lookup "apiVersion".toList = none →
      validateResource env st data fileName =
        .ok ((ValidationResult.mk fileName kind [] [],
            some { msg := "Missing apiVersion key".toList }),
          { st with calls := st.calls ++ [Call.yamlUnmarshal data] }) := by
    intro kind hk ha
    rw [key, getKind_string kvs kind hk]
    simp only
    rw [getAPIVersion_absent kvs ha]
  have apiNull : ∀ kind : Str, kvs.lookup "kind".toList = some (.scalar (.str kind)) →
      kvs.lookup "apiVersion".toList = some (.scalar .null) →
      validateResource env st data fileName =
        .ok ((ValidationResult.mk fileName kind [] [],
            some { msg := "Missing apiVersion value".toList }),
          { st with calls := st.calls ++ [Call.yamlUnmarshal data] }) := by
    intro kind hk ha
    rw [key, getKind_string kvs kind hk]
    simp only
    rw [getAPIVersion_null kvs ha]
  refine ⟨absent, null, fun kind hk => ⟨apiAbsent kind hk, apiNull kind hk, ?_⟩, ?_, ?_⟩
  · intro apiVersion ha
    obtain ⟨errors, err, st', h, hF⟩ := both kind apiVersion hk ha
    refine ⟨errors, err, st', h, ?_⟩
    intro e he hmem
    obtain ⟨t, ht⟩ := hF e he
    rw [ht] at hmem
    simp at hmem
  · constructor
    · rintro ⟨r, e, st', h, hmsg⟩
      rcases validateResource_error_source env st st' data fileName spec kvs r e hdecode
        hnormal hne h with ⟨k, hk⟩ | ⟨k, a, _, ha⟩ | ⟨t, ht⟩
      · exact getKind_error_lookup kvs k e hk
      · have := (getAPIVersion_error _ a e ha).2
        rcases this with h1 | h1 <;> rcases hmsg with h2 | h2 <;> rw [h1] at h2 <;>
          exact absurd h2 (by decide)
      · rw [ht] at hmsg
        rcases hmsg with h2 | h2 <;> simp at h2
    · rintro (hk | hk)
      · exact ⟨_, _, _, absent hk, Or.inl rfl⟩
      · exact ⟨_, _, _, null hk, Or.inr rfl⟩
  · intro kind hk
    constructor
    · rintro ⟨r, e, st', h, hmsg⟩
      rcases validateResource_error_source env st st' data fileName spec kvs r e hdecode
        hnormal hne h with ⟨k, hk'⟩ | ⟨k, a, _, ha⟩ | ⟨t, ht⟩
      · rw [getKind_string kvs kind hk] at hk'
        simp at hk'
      · exact getAPIVersion_error_lookup kvs a e ha
      · rw [ht] at hmsg
        rcases hmsg with h2 | h2 <;> simp at h2
    · rintro (ha | ha)
      · exact ⟨_, _, _, apiAbsent kind hk ha, Or.inl rfl⟩
      · exact ⟨_, _, _, apiNull kind hk ha, Or.inr rfl⟩

/-- C11 (witness): the document `kind: Service` has a string kind and no `apiVersion`. -/
theorem validateResource_missing_fields_witness :
    sampleEnv.yamlUnmarshal (bytesOf "kind: Service")
      = some (.map [(.str "kind".toList, .scalar (.str "Service".toList))]) ∧
    convertToStringKeys (.map [(.str "kind".toList, .scalar (.str "Service".toList))])
      = .ok (.stringMap [("kind".toList, .scalar (.str "Service".toList))]) ∧
    validateResource sampleEnv exampleState (bytesOf "kind: Service") "f.yaml".toList =
      .ok (({ FileName := "f.yaml".toList, Kind := "Service".toList, APIVersion := [],
              Errors := [] }, some { msg := "Missing apiVersion key".toList }),
        { globals := { Version := [], SchemaLocation := [] }, world := 0,
          calls := [Call.yamlUnmarshal (bytesOf "kind: Service")] }) :=
  ⟨rfl, rfl,
    ((validateResource_missing_fields sampleEnv exampleState (bytesOf "kind: Service")
      "f.yaml".toList _ [("kind".toList, .scalar (.str "Service".toList))] rfl rfl
      (by simp)).2.2.1 "Service".toList rfl).1 rfl⟩

/-- C12 (what the code does): on a document whose normalized root is a non-empty mapping in
which `kind` is present, not nil and no string, or `kind` is a string and `apiVersion` is
present, not nil and no string, `validateResource` does not return an error: it panics. -/
theorem validateResource_panics_on_non_string_field {W : Type} (env : Env W) (st : State W)
    (data : Bytes) (fileName : Str) (spec : Value) (kvs : List (Str × Value)) (v : Value)
    (hdecode : env.yamlUnmarshal data = some spec)
    (hnormal : convertToStringKeys spec = .ok (.stringMap kvs)) (hne : kvs ≠ [])
    (hnull : v ≠ .scalar .null) (hstr : ∀ s, v ≠ .scalar (.str s)) :
    (kvs.lookup "kind".toList = some v →
      validateResource env st data fileName = .error .interfaceConversion) ∧
    (∀ kind : Str, kvs.lookup "kind".toList = some (.scalar (.str kind)) →
      kvs.lookup "apiVersion".toList = some v →
      validateResource env st data fileName = .error .interfaceConversion) := by
  have key := validateResource_of_mapping env st data fileName spec kvs hdecode hnormal hne
  constructor
  · intro hk
    rw [key, getKind_other kvs v hk hnull hstr]
  · intro kind hk ha
    rw [key, getKind_string kvs kind hk]
    simp only
    rw [getAPIVersion_other kvs v ha hnull hstr]

/-- C12 (failing inputs): `kind: [a]` and `apiVersion: 1` make `validateResource` panic, and
with it `Validate`, which then returns nothing for the sibling document either. -/
theorem validateResource_panics_on_non_string_field_witness :
    validateResource sampleEnv exampleState (bytesOf "kind: [a]") "f.yaml".toList
      = .error .interfaceConversion ∧
    validateResource sampleEnv exampleState (bytesOf "kind: Service\napiVersion: 1")
        "f.yaml".toList
      = .error .interfaceConversion ∧
    Split (bytesOf "kind: Service\napiVersion: v1\n---\nkind: [a]")
        (getLineBreak sampleEnv.GOOS (bytesOf "kind: Service\napiVersion: v1\n---\nkind: [a]"))
      = [bytesOf "kind: Service\napiVersion: v1", bytesOf "kind: [a]"] ∧
    Validate sampleEnv exampleState (bytesOf "kind: Service\napiVersion: v1\n---\nkind: [a]")
        "f.yaml".toList
      = .error .interfaceConversion :=
  ⟨(validateResource_panics_on_non_string_field sampleEnv exampleState (bytesOf "kind: [a]")
      "f.yaml".toList _ [("kind".toList, .seq [.scalar (.str "a".toList)])]
      (.seq [.scalar (.str "a".toList)]) rfl rfl (by simp) (by simp) (by simp)).1 rfl,
    (validateResource_panics_on_non_string_field sampleEnv exampleState
      (bytesOf "kind: Service\napiVersion: 1") "f.yaml".toList _
      [("kind".toList, .scalar (.str "Service".toList)), ("apiVersion".toList, .scalar (.int 1))]
      (.scalar (.int 1)) rfl rfl (by simp) (by simp) (by simp)).2 "Service".toList rfl rfl,
    rfl, rfl⟩

/-- C15: on a document with string `kind` and `apiVersion`, `validateResource` invokes the
schema capability on the URL `getSchema` derives. When the capability returns the violation
list `L` (empty or not), the result carries `Kind`, `APIVersion` and `Errors = L`, in the same
order, and the error is nil; when the capability fails, `Errors` is empty and the error is
`Failed to load schema from <URL>: <cause>`, which names the URL. -/
theorem validateResource_schema_outcome {W : Type} (env : Env W) (st : State W) (data : Bytes)
    (fileName : Str) (spec : Value) (kvs : List (Str × Value)) (kind apiVersion : Str)
    (hdecode : env.yamlUnmarshal data = some spec)
    (hnormal : convertToStringKeys spec = .ok (.stringMap kvs))
    (hkind : kvs.lookup "kind".toList = some (.scalar (.str kind)))
    (hapi : kvs.lookup "apiVersion".toList = some (.scalar (.str apiVersion))) :
    ∃ (schema : Str) (g : Globals),
      getSchema env.ToLower env.schema_location st.globals kind apiVersion = .ok (schema, g) ∧
      (∀ (L : List ResultError) (w : W),
        env.gojsonschemaValidate st.world schema (.stringMap kvs) = (.ok L, w) →
        validateResource env st data fileName =
          .ok (({ FileName := fileName, Kind := kind, APIVersion := apiVersion, Errors := L },
              none),
            { globals := g, world := w,
              calls := st.calls ++ [Call.yamlUnmarshal data]
                ++ [Call.gojsonschemaValidate schema (.stringMap kvs)] })) ∧
      (∀ (cause : GoError) (w : W),
        env.gojsonschemaValidate st.world schema (.stringMap kvs) = (.error cause, w) →
        validateResource env st data fileName =
          .ok (({ FileName := fileName, Kind := kind, APIVersion := apiVersion, Errors := [] },
              some { msg := "Failed to load schema from ".toList ++ schema ++ ": ".toList
                ++ cause.msg }),
            { globals := g, world := w,
              calls := st.calls ++ [Call.yamlUnmarshal data]
                ++ [Call.gojsonschemaValidate schema (.stringMap kvs)] }) ∧
        schema <:+: ("Failed to load schema from ".toList ++ schema ++ ": ".toList
          ++ cause.msg)) := by
  have hne : kvs ≠ [] := by
    intro h; rw [h] at hkind; simp at hkind
  have key := validateResource_of_mapping env st data fileName spec kvs hdecode hnormal hne
  rw [getKind_string kvs kind hkind] at key
  simp only at key
  rw [getAPIVersion_string kvs apiVersion hapi] at key
  simp only at key
  rw [getSchema_ok] at key
  simp only at key
  refine ⟨_, _, getSchema_ok _ _ _ _ _, ?_, ?_⟩
  · intro L w hcap
    rw [key, hcap]
  · intro cause w hcap
    refine ⟨by rw [key, hcap], ?_⟩
    exact ⟨"Failed to load schema from ".toList, ": ".toList ++ cause.msg,
      by simp only [List.append_assoc]⟩

/-- C15 (witness): the `Pod` document, whose schema reports two violations. -/
theorem validateResource_schema_outcome_witness :
    ∃ (schema : Str) (g : Globals),
      getSchema sampleEnv.ToLower sampleEnv.schema_location exampleState.globals "Pod".toList
        "v1".toList = .ok (schema, g) ∧
      validateResource sampleEnv exampleState (bytesOf "kind: Pod\napiVersion: v1")
          "f.yaml".toList =
        .ok (({ FileName := "f.yaml".toList, Kind := "Pod".toList, APIVersion := "v1".toList,
                Errors := [{ description := "metadata: metadata is required".toList },
                  { description := "spec: spec is required".toList }] }, none),
          { globals := g, world := 1,
            calls := [Call.yamlUnmarshal (bytesOf "kind: Pod\napiVersion: v1")]
              ++ [Call.gojsonschemaValidate schema
                (.stringMap [("kind".toList, .scalar (.str "Pod".toList)),
                  ("apiVersion".toList, .scalar (.str "v1".toList))])] }) :=
  (validateResource_schema_outcome sampleEnv exampleState (bytesOf "kind: Pod\napiVersion: v1")
    "f.yaml".toList _ [("kind".toList, .scalar (.str "Pod".toList)),
      ("apiVersion".toList, .scalar (.str "v1".toList))] "Pod".toList "v1".toList
    rfl rfl rfl rfl).imp fun schema h => h.imp fun g h =>
      ⟨h.1, h.2.1 [{ description := "metadata: metadata is required".toList },
        { description := "spec: spec is required".toList }] 1 (by
          have hs := h.1
          rw [getSchema_ok] at hs
          cases hs
          rfl)⟩

/-! ## Facts about `convertToStringKeys` -/

/-- The specification's normalization of a sequence is element by element. -/
theorem normalFormElements_eq_map (xs : List Value) :
    normalFormElements xs = xs.map normalForm := by
  induction xs with
  | nil => rfl
  | cons v vs ih => simp [normalFormElements, ih]

/-- The specification's normalization of a mapping is entry by entry. -/
theorem normalFormEntries_eq_map (kvs : List (Scalar × Value)) :
    normalFormEntries kvs = kvs.map (fun kv => (keyString kv.1, normalForm kv.2)) := by
  induction kvs with
  | nil => rfl
  | cons kv kvs ih =>
    obtain ⟨k, v⟩ := kv
    simp [normalFormEntries, ih]

mutual
/-- On a decoded tree with string keys, `convertToStringKeys` returns the specification's
normal form. -/
theorem convertToStringKeys_of_stringKeyed :
    ∀ v : Value, stringKeyed v = true → convertToStringKeys v = .ok (normalForm v)
  | .scalar s, _ => rfl
  | .seq xs, h => by
    have ih := convertElements_of_stringKeyed xs (by simpa [stringKeyed] using h)
    simp [convertToStringKeys, normalForm, ih, bind, Except.bind, pure, Except.pure]
  | .map kvs, h => by
    have ih := convertEntries_of_stringKeyed kvs (by simpa [stringKeyed] using h)
    simp [convertToStringKeys, normalForm, ih, bind, Except.bind, pure, Except.pure]
  | .stringMap kvs, h => by simp [stringKeyed] at h
theorem convertElements_of_stringKeyed :
    ∀ xs : List Value, stringKeyedElements xs = true →
      convertElements xs = .ok (normalFormElements xs)
  | [], _ => rfl
  | v :: vs, h => by
    simp only [stringKeyedElements, Bool.and_eq_true] at h
    have h₁ := convertToStringKeys_of_stringKeyed v h.1
    have h₂ := convertElements_of_stringKeyed vs h.2
    simp [convertElements, normalFormElements, h₁, h₂, bind, Except.bind, pure, Except.pure]
theorem convertEntries_of_stringKeyed :
    ∀ kvs : List (Scalar × Value), stringKeyedEntries kvs = true →
      convertEntries kvs = .ok (normalFormEntries kvs)
  | [], _ => rfl
  | (k, v) :: kvs, h => by
    simp only [stringKeyedEntries, Bool.and_eq_true] at h
    obtain ⟨⟨hk, hv⟩, hkvs⟩ := h
    have h₁ := convertToStringKeys_of_stringKeyed v hv
    have h₂ := convertEntries_of_stringKeyed kvs hkvs
    cases k with
    | str s =>
      simp [convertEntries, normalFormEntries, keyString, h₁, h₂, bind, Except.bind, pure,
        Except.pure]
    | null => simp at hk
    | bool b => simp at hk
    | int i => simp at hk
    | float bits => simp at hk
end

/-- The keys of a mapping with string keys are the strings `keyString` reads off them. -/
theorem keys_of_stringKeyedEntries :
    ∀ kvs : List (Scalar × Value), stringKeyedEntries kvs = true →
      kvs.map (fun kv => Scalar.str (keyString kv.1)) = kvs.map Prod.fst
  | [], _ => rfl
  | (k, v) :: kvs, h => by
    simp only [stringKeyedEntries, Bool.and_eq_true] at h
    obtain ⟨⟨hk, _⟩, hkvs⟩ := h
    have ih := keys_of_stringKeyedEntries kvs hkvs
    cases k with
    | str s =>
      simp only [List.map_cons]
      rw [ih]
      rfl
    | null => simp at hk
    | bool b => simp at hk
    | int i => simp at hk
    | float bits => simp at hk

/-- C13 (failing inputs): on a mapping with the integer key `1`, and on a sequence that holds a
mapping with a boolean key, `convertToStringKeys` does not return a tree: the assertion
`k.(string)` panics; `validateResource` and `Validate` panic with it on the document `1: a`. -/
theorem convertToStringKeys_panics_on_non_string_key :
    convertToStringKeys (.map [(.int 1, .scalar (.str "a".toList))])
      = .error .interfaceConversion ∧
    convertToStringKeys
        (.map [(.str "items".toList,
          .seq [.scalar (.int 7), .map [(.bool true, .scalar (.str "a".toList))]])])
      = .error .interfaceConversion ∧
    sampleEnv.yamlUnmarshal (bytesOf "1: a")
      = some (.map [(.int 1, .scalar (.str "a".toList))]) ∧
    validateResource sampleEnv exampleState (bytesOf "1: a") "f.yaml".toList
      = .error .interfaceConversion ∧
    Validate sampleEnv exampleState (bytesOf "kind: Service\napiVersion: v1\n---\n1: a")
        "f.yaml".toList
      = .error .interfaceConversion :=
  ⟨rfl, rfl, rfl, rfl, rfl⟩

/-- C14: on a decoded tree all of whose mapping keys are strings, `convertToStringKeys`
returns the tree of the same shape: a scalar unchanged, a sequence with the same length and
order and every element normalized, a mapping with exactly its keys, in place, and every
value normalized, at every depth. -/
theorem convertToStringKeys_same_shape (v : Value) (h : stringKeyed v = true) :
    convertToStringKeys v = .ok (normalForm v) ∧
    (∀ s, v = .scalar s → normalForm v = .scalar s) ∧
    (∀ xs, v = .seq xs →
      normalForm v = .seq (xs.map normalForm) ∧ (xs.map normalForm).length = xs.length ∧
      ∀ x ∈ xs, stringKeyed x = true ∧ convertToStringKeys x = .ok (normalForm x)) ∧
    (∀ kvs, v = .map kvs →
      normalForm v = .stringMap (kvs.map (fun kv => (keyString kv.1, normalForm kv.2))) ∧
      (kvs.map (fun kv => (keyString kv.1, normalForm kv.2))).map (fun e => Scalar.str e.1)
        = kvs.map Prod.fst ∧
      ∀ kv ∈ kvs, stringKeyed kv.2 = true ∧ convertToStringKeys kv.2 = .ok (normalForm kv.2)) := by
  refine ⟨convertToStringKeys_of_stringKeyed v h, ?_, ?_, ?_⟩
  · rintro s rfl
    rfl
  · rintro xs rfl
    refine ⟨by simp [normalForm, normalFormElements_eq_map], by simp, ?_⟩
    have hall : ∀ l : List Value, stringKeyedElements l = true → ∀ x ∈ l, stringKeyed x = true := by
      intro l
      induction l with
      | nil => intro _ x hx; cases hx
      | cons a l ih =>
        intro hl x hx
        simp only [stringKeyedElements, Bool.and_eq_true] at hl
        rcases List.mem_cons.1 hx with rfl | hx
        · exact hl.1
        · exact ih hl.2 x hx
    intro x hx
    have hx' := hall xs (by simpa [stringKeyed] using h) x hx
    exact ⟨hx', convertToStringKeys_of_stringKeyed x hx'⟩
  · rintro kvs rfl
    have hk : stringKeyedEntries kvs = true := by simpa [stringKeyed] using h
    refine ⟨by simp [normalForm, normalFormEntries_eq_map], ?_, ?_⟩
    · rw [List.map_map]
      exact keys_of_stringKeyedEntries kvs hk
    · have hall : ∀ l : List (Scalar × Value), stringKeyedEntries l = true →
          ∀ kv ∈ l, stringKeyed kv.2 = true := by
        intro l
        induction l with
        | nil => intro _ x hx; cases hx
        | cons a l ih =>
          intro hl x hx
          obtain ⟨k, w⟩ := a
          simp only [stringKeyedEntries, Bool.and_eq_true] at hl
          rcases List.mem_cons.1 hx with rfl | hx
          · exact hl.1.2
          · exact ih hl.2 x hx
      intro kv hkv
      have hkv' := hall kvs hk kv hkv
      exact ⟨hkv', convertToStringKeys_of_stringKeyed kv.2 hkv'⟩

/-- C14 (witness): a mapping that holds a sequence that holds a mapping. -/
theorem convertToStringKeys_same_shape_witness :
    stringKeyed (.map [(.str "kind".toList, .scalar (.str "List".toList)),
        (.str "items".toList,
          .seq [.scalar (.int 7), .map [(.str "a".toList, .scalar .null)]])]) = true ∧
    convertToStringKeys (.map [(.str "kind".toList, .scalar (.str "List".toList)),
        (.str "items".toList,
          .seq [.scalar (.int 7), .map [(.str "a".toList, .scalar .null)]])])
      = .ok (.stringMap [("kind".toList, .scalar (.str "List".toList)),
        ("items".toList,
          .seq [.scalar (.int 7), .stringMap [("a".toList, .scalar .null)]])]) :=
  ⟨rfl,
    (convertToStringKeys_same_shape
      (.map [(.str "kind".toList, .scalar (.str "List".toList)),
        (.str "items".toList,
          .seq [.scalar (.int 7), .map [(.str "a".toList, .scalar .null)]])]) rfl).1⟩

/-! ## Where the results of `Validate` come from -/

/-- A document that decodes to a root that is nil or no non-empty mapping gives the
placeholder, from any state. -/
theorem validateResource_of_empty_root {W : Type} (env : Env W) (st : State W) (data : Bytes)
    (fileName : Str) (spec body : Value) (hdecode : env.yamlUnmarshal data = some spec)
    (hnormal : convertToStringKeys spec = .ok body)
    (hroot : ∀ kvs, body = .stringMap kvs → kvs = []) :
    validateResource env st data fileName =
      .ok ((ValidationResult.mk fileName [] [] [], none),
        { st with calls := st.calls ++ [Call.yamlUnmarshal data] }) := by
  unfold validateResource
  simp only [hdecode, hnormal]
  by_cases hnil : body.isNil = true
  · simp [hnil]
  · have hlen : (asStringMap body).length = 0 := by
      cases body with
      | stringMap kvs => simp [asStringMap, hroot kvs rfl]
      | scalar s => rfl
      | seq xs => rfl
      | map kvs => rfl
    simp [hnil, hlen]

theorem getKind_ok_lookup (kvs : List (Str × Value)) (kind : Str)
    (h : getKind (.stringMap kvs) = .ok (kind, none)) :
    kvs.lookup "kind".toList = some (.scalar (.str kind)) := by
  cases hk : kvs.lookup "kind".toList with
  | none => rw [getKind_absent kvs hk] at h; simp at h
  | some v =>
    by_cases hnull : v = .scalar .null
    · subst hnull; rw [getKind_null kvs hk] at h; simp at h
    · by_cases hstr : ∃ s, v = .scalar (.str s)
      · obtain ⟨s, rfl⟩ := hstr
        rw [getKind_string kvs s hk] at h
        simp only [Except.ok.injEq, Prod.mk.injEq, and_true] at h
        rw [h]
      · rw [getKind_other kvs v hk hnull (fun s hs => hstr ⟨s, hs⟩)] at h
        cases h

theorem getAPIVersion_ok_lookup (kvs : List (Str × Value)) (apiVersion : Str)
    (h : getAPIVersion (.stringMap kvs) = .ok (apiVersion, none)) :
    kvs.lookup "apiVersion".toList = some (.scalar (.str apiVersion)) := by
  cases hk : kvs.lookup "apiVersion".toList with
  | none => rw [getAPIVersion_absent kvs hk] at h; simp at h
  | some v =>
    by_cases hnull : v = .scalar .null
    · subst hnull; rw [getAPIVersion_null kvs hk] at h; simp at h
    · by_cases hstr : ∃ s, v = .scalar (.str s)
      · obtain ⟨s, rfl⟩ := hstr
        rw [getAPIVersion_string kvs s hk] at h
        simp only [Except.ok.injEq, Prod.mk.injEq, and_true] at h
        rw [h]
      · rw [getAPIVersion_other kvs v hk hnull (fun s hs => hstr ⟨s, hs⟩)] at h
        cases h

/-- A result of `validateResource` with violations: the document decoded and normalized to a
mapping with string `kind` and `apiVersion`, which the result holds, the schema capability
returned these violations for the derived URL, and the error is nil. -/
theorem validateResource_Errors_source {W : Type} (env : Env W) (st st' : State W)
    (data : Bytes) (fileName : Str) (r : ValidationResult) (err : Option GoError)
    (h : validateResource env st data fileName = .ok ((r, err), st'))
    (hErrors : r.Errors ≠ []) :
    err = none ∧
    ∃ (spec : Value) (kvs : List (Str × Value)) (schema : Str) (g : Globals) (w : W),
      env.yamlUnmarshal data = some spec ∧
      convertToStringKeys spec = .ok (.stringMap kvs) ∧
      kvs.lookup "kind".toList = some (.scalar (.str r.Kind)) ∧
      kvs.lookup "apiVersion".toList = some (.scalar (.str r.APIVersion)) ∧
      getSchema env.ToLower env.schema_location st.globals r.Kind r.APIVersion
        = .ok (schema, g) ∧
      env.gojsonschemaValidate st.world schema (.stringMap kvs) = (.ok r.Errors, w) := by
  cases hdecode : env.yamlUnmarshal data with
  | none =>
    unfold validateResource at h
    simp only [hdecode, Except.ok.injEq, Prod.mk.injEq] at h
    obtain ⟨⟨rfl, _⟩, _⟩ := h
    exact absurd rfl hErrors
  | some spec =>
    cases hnormal : convertToStringKeys spec with
    | error p =>
      unfold validateResource at h
      simp only [hdecode, hnormal] at h
      cases h
    | ok body =>
      by_cases hroot : ∀ kvs, body = .stringMap kvs → kvs = []
      · rw [validateResource_of_empty_root env st data fileName spec body hdecode hnormal
          hroot] at h
        simp only [Except.ok.injEq, Prod.mk.injEq] at h
        obtain ⟨⟨rfl, _⟩, _⟩ := h
        exact absurd rfl hErrors
      · push_neg at hroot
        obtain ⟨kvs, rfl, hne⟩ := hroot
        rw [validateResource_of_mapping env st data fileName spec kvs hdecode hnormal hne]
          at h
        cases hk : getKind (.stringMap kvs) with
        | error p => rw [hk] at h; cases h
        | ok out =>
          obtain ⟨kind, e⟩ := out
          rw [hk] at h
          cases e with
          | some e' =>
            simp only [Except.ok.injEq, Prod.mk.injEq] at h
            obtain ⟨⟨rfl, _⟩, _⟩ := h
            exact absurd rfl hErrors
          | none =>
            simp only at h
            cases ha : getAPIVersion (.stringMap kvs) with
            | error p => rw [ha] at h; cases h
            | ok out =>
              obtain ⟨apiVersion, e⟩ := out
              rw [ha] at h
              cases e with
              | some e' =>
                simp only [Except.ok.injEq, Prod.mk.injEq] at h
                obtain ⟨⟨rfl, _⟩, _⟩ := h
                exact absurd rfl hErrors
              | none =>
                simp only at h
                obtain ⟨schema, g, hs⟩ : ∃ schema g,
                    getSchema env.ToLower env.schema_location st.globals kind apiVersion
                      = .ok (schema, g) := ⟨_, _, getSchema_ok _ _ _ _ _⟩
                rw [hs] at h
                simp only at h
                cases hc : (env.gojsonschemaValidate st.world schema (.stringMap kvs)).1 with
                | error cause =>
                  rw [hc] at h
                  simp only [Except.ok.injEq, Prod.mk.injEq] at h
                  obtain ⟨⟨rfl, _⟩, _⟩ := h
                  exact absurd rfl hErrors
                | ok errors =>
                  rw [hc] at h
                  simp only [Except.ok.injEq, Prod.mk.injEq] at h
                  obtain ⟨⟨rfl, rfl⟩, _⟩ := h
                  exact ⟨rfl, spec, kvs, schema, g,
                    (env.gojsonschemaValidate st.world schema (.stringMap kvs)).2, rfl, hnormal,
                    getKind_ok_lookup kvs kind hk, getAPIVersion_ok_lookup kvs apiVersion ha,
                    hs, Prod.ext hc rfl⟩

/-- The results of the loop, position by position: the placeholder for an empty document,
what a call of `validateResource` returned for a non-empty one. -/
theorem validateLoop_positions {W : Type} (env : Env W) (fileName : Str) :
    ∀ (bits : List Bytes) (st st' : State W) (results results' : List ValidationResult)
      (errors errors' : Option MultiError),
      validateLoop env fileName bits st results errors = .ok ((results', errors'), st') →
      ∃ new : List ValidationResult, results' = results ++ new ∧ new.length = bits.length ∧
        ∀ (i : Nat) (data : Bytes), bits[i]? = some data →
          (data = [] ∧ new[i]? = some (ValidationResult.mk fileName [] [] [])) ∨
          (data ≠ [] ∧ ∃ (st₀ st₁ : State W) (r : ValidationResult) (err : Option GoError),
            new[i]? = some r ∧
            validateResource env st₀ data fileName = .ok ((r, err), st₁))
  | [], st, st', results, results', errors, errors', h => by
    simp only [validateLoop] at h
    cases h
    exact ⟨[], by simp⟩
  | element :: bits, st, st', results, results', errors, errors', h => by
    simp only [validateLoop] at h
    by_cases hlen : element.length > 0
    · rw [if_pos hlen] at h
      have hne : element ≠ [] := by
        intro e; rw [e] at hlen; simp at hlen
      cases hv : validateResource env st element fileName with
      | error p => rw [hv] at h; cases h
      | ok out =>
        obtain ⟨⟨r, err⟩, st₁⟩ := out
        rw [hv] at h
        have step : ∀ es, validateLoop env fileName bits st₁ (results ++ [r]) es
            = .ok ((results', errors'), st') →
            ∃ new : List ValidationResult, results' = results ++ new ∧
              new.length = (element :: bits).length ∧
              ∀ (i : Nat) (data : Bytes), (element :: bits)[i]? = some data →
                (data = [] ∧ new[i]? = some (ValidationResult.mk fileName [] [] [])) ∨
                (data ≠ [] ∧ ∃ (st₀ st₁ : State W) (r : ValidationResult)
                  (err : Option GoError), new[i]? = some r ∧
                  validateResource env st₀ data fileName = .ok ((r, err), st₁)) := by
          intro es hes
          obtain ⟨new, h₁, h₂, h₃⟩ :=
            validateLoop_positions env fileName bits st₁ st' _ results' es errors' hes
          refine ⟨r :: new, by simp [h₁], by simp [h₂], ?_⟩
          intro i data hi
          cases i with
          | zero =>
            simp only [List.getElem?_cons_zero, Option.some.injEq] at hi
            subst hi
            exact Or.inr ⟨hne, st, st₁, r, err, by simp, hv⟩
          | succ j =>
            simp only [List.getElem?_cons_succ] at hi ⊢
            exact h₃ j data hi
        cases err with
        | none => exact step _ h
        | some e => exact step _ h
    · rw [if_neg hlen] at h
      have he : element = [] := by
        cases element with
        | nil => rfl
        | cons a l => simp at hlen
      obtain ⟨new, h₁, h₂, h₃⟩ :=
        validateLoop_positions env fileName bits st st' _ results' errors errors' h
      refine ⟨ValidationResult.mk fileName [] [] [] :: new, by simp [h₁], by simp [h₂], ?_⟩
      intro i data hi
      cases i with
      | zero =>
        simp only [List.getElem?_cons_zero, Option.some.injEq] at hi
        subst hi
        exact Or.inl ⟨he, by simp⟩
      | succ j =>
        simp only [List.getElem?_cons_succ] at hi ⊢
        exact h₃ j data hi

/-- C16: in every result list `Validate` returns, a result whose `Errors` is non-empty is what
`validateResource` returned, with a nil error, for a non-empty span that decoded and
normalized to a mapping with string `kind` and `apiVersion` (the values `Kind` and
`APIVersion` hold), after the schema capability returned exactly these violations for the
URL derived from them; and the result at the position of an empty span, or of a document whose
normalized root is not a non-empty mapping, has `Kind` and `Errors` empty. -/
theorem Validate_results_invariant {W : Type} (env : Env W) (st st' : State W)
    (config : Bytes) (fileName : Str) (results : List ValidationResult)
    (errors : Option MultiError)
    (h : Validate env st config fileName = .ok ((results, errors), st')) :
    (∀ r ∈ results, r.Errors ≠ [] →
      ∃ (data : Bytes) (st₀ st₁ : State W) (spec : Value) (kvs : List (Str × Value))
        (schema : Str) (g : Globals) (w : W),
        data ∈ Split config (getLineBreak env.GOOS config) ∧ data ≠ [] ∧
        validateResource env st₀ data fileName = .ok ((r, none), st₁) ∧
        env.yamlUnmarshal data = some spec ∧
        convertToStringKeys spec = .ok (.stringMap kvs) ∧
        kvs.lookup "kind".toList = some (.scalar (.str r.Kind)) ∧
        kvs.lookup "apiVersion".toList = some (.scalar (.str r.APIVersion)) ∧
        getSchema env.ToLower env.schema_location st₀.globals r.Kind r.APIVersion
          = .ok (schema, g) ∧
        env.gojsonschemaValidate st₀.world schema (.stringMap kvs) = (.ok r.Errors, w)) ∧
    (∀ i : Nat, (Split config (getLineBreak env.GOOS config))[i]? = some [] →
      ∃ r, results[i]? = some r ∧ r.Kind = [] ∧ r.Errors = []) ∧
    (∀ (i : Nat) (data : Bytes) (spec body : Value),
      (Split config (getLineBreak env.GOOS config))[i]? = some data →
      env.yamlUnmarshal data = some spec → convertToStringKeys spec = .ok body →
      (∀ kvs, body = .stringMap kvs → kvs = []) →
      ∃ r, results[i]? = some r ∧ r.Kind = [] ∧ r.Errors = []) := by
  rw [Validate_eq_loop] at h
  cases hl : validateLoop env fileName (Split config (getLineBreak env.GOOS config)) st [] none
    with
  | error p => rw [hl] at h; cases h
  | ok out =>
    obtain ⟨⟨rs, es⟩, st₁⟩ := out
    rw [hl] at h
    simp only [Except.ok.injEq, Prod.mk.injEq] at h
    obtain ⟨⟨hr, _⟩, _⟩ := h
    obtain ⟨new, h₁, h₂, h₃⟩ := validateLoop_positions env fileName _ st st₁ [] rs none es hl
    simp only [List.nil_append] at h₁
    subst h₁
    subst hr
    refine ⟨?_, ?_, ?_⟩
    · intro r hr hErrors
      obtain ⟨i, hi, hget⟩ := List.getElem_of_mem hr
      have hib : i < (Split config (getLineBreak env.GOOS config)).length := h₂ ▸ hi
      have hdata : (Split config (getLineBreak env.GOOS config))[i]?
          = some ((Split config (getLineBreak env.GOOS config))[i]) :=
        List.getElem?_eq_getElem hib
      have hri : rs[i]? = some r := by rw [List.getElem?_eq_getElem hi, hget]
      rcases h₃ i _ hdata with ⟨_, hph⟩ | ⟨hne, st₀, st₂, r', err, hr', hv⟩
      · rw [hri] at hph
        cases hph
        exact absurd rfl hErrors
      · rw [hri] at hr'
        cases hr'
        obtain ⟨herr, spec, kvs, schema, g, w, f₁, f₂, f₃, f₄, f₅, f₆⟩ :=
          validateResource_Errors_source env st₀ st₂ _ fileName r err hv hErrors
        subst herr
        exact ⟨_, st₀, st₂, spec, kvs, schema, g, w, List.getElem_mem hib, hne, hv, f₁, f₂, f₃,
          f₄, f₅, f₆⟩
    · intro i hi
      rcases h₃ i _ hi with ⟨_, hph⟩ | ⟨hne, _⟩
      · exact ⟨_, hph, rfl, rfl⟩
      · exact absurd rfl hne
    · intro i data spec body hi hdecode hnormal hroot
      rcases h₃ i _ hi with ⟨_, hph⟩ | ⟨_, st₀, st₂, r, err, hr, hv⟩
      · exact ⟨_, hph, rfl, rfl⟩
      · rw [validateResource_of_empty_root env st₀ data fileName spec body hdecode hnormal
          hroot] at hv
        simp only [Except.ok.injEq, Prod.mk.injEq] at hv
        obtain ⟨⟨rfl, _⟩, _⟩ := hv
        exact ⟨_, hr, rfl, rfl⟩

/-- C16 (witness): a `Pod` document with two violations, followed by a trailing separator. -/
theorem Validate_results_invariant_witness :
    (Validate sampleEnv exampleState (bytesOf "kind: Pod\napiVersion: v1\n---\n")
        "f.yaml".toList).map (fun out => out.1)
      = .ok ([{ FileName := "f.yaml".toList, Kind := "Pod".toList, APIVersion := "v1".toList,
                Errors := [{ description := "metadata: metadata is required".toList },
                  { description := "spec: spec is required".toList }] },
              { FileName := "f.yaml".toList, Kind := [], APIVersion := [], Errors := [] }],
            none) ∧
    ∃ (data : Bytes) (kvs : List (Str × Value)),
      data ≠ [] ∧
      kvs.lookup "kind".toList = some (.scalar (.str "Pod".toList)) ∧
      kvs.lookup "apiVersion".toList = some (.scalar (.str "v1".toList)) :=
  ⟨rfl, by
    obtain ⟨data, _, _, _, kvs, _, _, _, _, hne, _, _, _, hk, ha, _, _⟩ :=
      (Validate_results_invariant sampleEnv exampleState _
        (bytesOf "kind: Pod\napiVersion: v1\n---\n") "f.yaml".toList _ _ rfl).1
        { FileName := "f.yaml".toList, Kind := "Pod".toList, APIVersion := "v1".toList,
          Errors := [{ description := "metadata: metadata is required".toList },
            { description := "spec: spec is required".toList }] }
        (List.mem_cons_self _ _) (by simp)
    exact ⟨data, kvs, hne, hk, ha⟩⟩

/-! ## Facts about line breaks and separators of several elements -/

/-- The function `Contains` decides whether `sub` is an infix of `b`. -/
theorem Contains_iff_infix {α : Type} [DecidableEq α] (sub : List α) :
    ∀ b : List α, Contains b sub = true ↔ sub <:+: b
  | [] => by
    simp only [Contains, List.isPrefixOf_iff_prefix]
    exact ⟨fun h => h.isInfix, fun h => by
      have := List.infix_nil.1 h
      subst this
      exact List.prefix_refl _⟩
  | c :: cs => by
    simp only [Contains, Bool.or_eq_true, List.isPrefixOf_iff_prefix, Contains_iff_infix sub cs,
      List.infix_cons_iff]

/-- Passing over the rest of a matched separator. -/
theorem splitFrom_skip {α : Type} [DecidableEq α] (sep b : List α) :
    ∀ (xs : List α) (k : Nat), xs.length = k → splitFrom sep k (xs ++ b) = splitFrom sep 0 b
  | [], k, h => by
    simp only [List.length_nil] at h
    subst h
    rfl
  | x :: xs, k, h => by
    cases k with
    | zero => simp at h
    | succ k =>
      simp only [List.cons_append, splitFrom]
      exact splitFrom_skip sep b xs k (by simpa using h)

/-- A buffer in which the separator does not occur is one piece. -/
theorem Split_of_not_infix {α : Type} [DecidableEq α] (sep : List α) :
    ∀ s : List α, ¬ sep <:+: s → Split s sep = [s]
  | [], _ => rfl
  | c :: cs, h => by
    have h₁ : ¬ sep <+: c :: cs := fun hp => h hp.isInfix
    have h₂ : ¬ sep <:+: cs := fun hi => h (List.infix_cons hi)
    have ih := Split_of_not_infix sep cs h₂
    simp only [Split] at ih ⊢
    have hb : sep.isPrefixOf (c :: cs) = false := by
      rw [Bool.eq_false_iff]
      intro hp
      exact h₁ (List.isPrefixOf_iff_prefix.1 hp)
    simp only [splitFrom, hb, ih, Bool.false_eq_true, if_false]

/-- A buffer `a ++ sep ++ b` whose first separator occurrence is the one shown is cut there. -/
theorem Split_append_sep {α : Type} [DecidableEq α] (sep b : List α) (hsep : sep ≠ []) :
    ∀ a : List α, ¬ sep <:+: a ++ sep.dropLast → Split (a ++ sep ++ b) sep = a :: Split b sep
  | [], _ => by
    cases sep with
    | nil => exact absurd rfl hsep
    | cons h t =>
      have hp : (h :: t).isPrefixOf (h :: (t ++ b)) = true :=
        List.isPrefixOf_iff_prefix.2 ⟨b, rfl⟩
      have hskip := splitFrom_skip (h :: t) b t t.length rfl
      show splitFrom (h :: t) 0 (h :: (t ++ b)) = [] :: splitFrom (h :: t) 0 b
      rw [splitFrom, if_pos hp]
      show [] :: splitFrom (h :: t) t.length (t ++ b) = _
      rw [hskip]
  | x :: xs, hno => by
    have hno' : ¬ sep <:+: xs ++ sep.dropLast := fun hi => hno (List.infix_cons hi)
    have ih := Split_append_sep sep b hsep xs hno'
    have hb : sep.isPrefixOf (x :: (xs ++ sep ++ b)) = false := by
      rw [Bool.eq_false_iff]
      intro hp
      have hp' : sep <+: x :: (xs ++ sep ++ b) := List.isPrefixOf_iff_prefix.1 hp
      apply hno
      have hsplit : x :: (xs ++ sep ++ b)
          = ((x :: xs) ++ sep.dropLast) ++ (sep.getLast hsep :: b) := by
        conv_lhs => rw [← List.dropLast_append_getLast hsep]
        simp
      have hlen : sep.length ≤ ((x :: xs) ++ sep.dropLast).length := by
        simp only [List.length_append, List.length_cons, List.length_dropLast]
        have : 0 < sep.length := List.length_pos.2 hsep
        omega
      exact (List.prefix_of_prefix_length_le hp' ⟨_, hsplit.symm⟩ hlen).isInfix
    simp only [Split] at ih ⊢
    simp only [List.cons_append, List.append_assoc] at ih hb ⊢
    simp only [splitFrom, hb, ih, Bool.false_eq_true, if_false]

/-- C17 (counterexample): on Linux the buffer `a\r\n---\r\nb` contains `\r\n`, yet
`getLineBreak` returns `\n---\n`, not `\r\n---\r\n`, and the buffer stays one span. -/
theorem getLineBreak_linux_counterexample :
    bytesOf "\r\n" <:+: bytesOf "a\r\n---\r\nb" ∧
    getLineBreak "linux".toList (bytesOf "a\r\n---\r\nb") = bytesOf "\n---\n" ∧
    bytesOf "\n---\n" ≠ bytesOf "\r\n---\r\n" ∧
    Split (bytesOf "a\r\n---\r\nb") (getLineBreak "linux".toList (bytesOf "a\r\n---\r\nb"))
      = [bytesOf "a\r\n---\r\nb"] :=
  ⟨⟨bytesOf "a", bytesOf "---\r\nb", rfl⟩, rfl, by decide, rfl⟩

/-- C17 (amended): the separator depends on the buffer and on the platform. `getLineBreak`
returns `\r\n---\r\n` for a buffer that contains `\r\n` when `runtime.GOOS` is `windows`, and
`\n---\n` in every other case: a buffer without `\r\n` on any platform, any buffer on another
platform. So on Windows two documents separated by `\r\n---\r\n`, with no earlier or later
occurrence of that separator, are split into two spans. -/
theorem getLineBreak_platform :
    (∀ (GOOS : Str) (body : Bytes),
      getLineBreak GOOS body =
        if bytesOf "\r\n" <:+: body ∧ GOOS = "windows".toList then bytesOf "\r\n---\r\n"
        else bytesOf "\n---\n") ∧
    (∀ d₁ d₂ : Bytes,
      ¬ bytesOf "\r\n---\r\n" <:+: d₁ ++ bytesOf "\r\n---\r" →
      ¬ bytesOf "\r\n---\r\n" <:+: d₂ →
      Split (d₁ ++ bytesOf "\r\n---\r\n" ++ d₂)
          (getLineBreak "windows".toList (d₁ ++ bytesOf "\r\n---\r\n" ++ d₂))
        = [d₁, d₂]) := by
  have first : ∀ (GOOS : Str) (body : Bytes),
      getLineBreak GOOS body =
        if bytesOf "\r\n" <:+: body ∧ GOOS = "windows".toList then bytesOf "\r\n---\r\n"
        else bytesOf "\n---\n" := by
    intro GOOS body
    have unfolded : getLineBreak GOOS body =
        if (Contains body (bytesOf "\r\n") && GOOS == "windows".toList) = true then
          bytesOf "\r\n---\r\n"
        else bytesOf "\n---\n" := by
      unfold getLineBreak
      split <;> rfl
    rw [unfolded]
    refine if_congr ?_ rfl rfl
    rw [Bool.and_eq_true, Contains_iff_infix, beq_iff_eq]
  refine ⟨first, ?_⟩
  intro d₁ d₂ h₁ h₂
  have hin : bytesOf "\r\n" <:+: d₁ ++ bytesOf "\r\n---\r\n" ++ d₂ :=
    ⟨d₁, bytesOf "---\r\n" ++ d₂, by
      show d₁ ++ bytesOf "\r\n" ++ (bytesOf "---\r\n" ++ d₂)
        = d₁ ++ (bytesOf "\r\n" ++ bytesOf "---\r\n") ++ d₂
      simp only [List.append_assoc]⟩
  rw [first, if_pos ⟨hin, rfl⟩,
    Split_append_sep (bytesOf "\r\n---\r\n") d₂ (by decide) d₁ h₁,
    Split_of_not_infix (bytesOf "\r\n---\r\n") d₂ h₂]

/-- C17 (witness): two one-line documents in a CRLF buffer, on Windows. -/
theorem getLineBreak_platform_witness :
    ¬ bytesOf "\r\n---\r\n" <:+: bytesOf "a: 1" ++ bytesOf "\r\n---\r" ∧
    ¬ bytesOf "\r\n---\r\n" <:+: bytesOf "b: 2" ∧
    Split (bytesOf "a: 1" ++ bytesOf "\r\n---\r\n" ++ bytesOf "b: 2")
        (getLineBreak "windows".toList
          (bytesOf "a: 1" ++ bytesOf "\r\n---\r\n" ++ bytesOf "b: 2"))
      = [bytesOf "a: 1", bytesOf "b: 2"] :=
  ⟨by decide, by decide,
    getLineBreak_platform.2 (bytesOf "a: 1") (bytesOf "b: 2") (by decide) (by decide)⟩

/-- C19 (counterexample): with an empty `Version`, a call of `getSchema` leaves `Version` set
to `master`. -/
theorem getSchema_sets_Version_counterexample :
    getSchema asciiToLower [] { Version := [], SchemaLocation := [] } "Service".toList
        "v1".toList
      = .ok ("https://kubernetesjsonschema.dev/master-standalone-strict/service-v1.json".toList,
          { Version := "master".toList, SchemaLocation := [] }) ∧
    ({ Version := "master".toList, SchemaLocation := [] } : Globals).Version
      ≠ ({ Version := [], SchemaLocation := [] } : Globals).Version :=
  ⟨rfl, by decide⟩

/-- C19 (amended): a call of `getSchema` never fails and leaves `SchemaLocation` as it was; it
leaves `Version` as it was when `Version` is non-empty, and sets an empty `Version` to
`master`; a further call leaves both as the first call left them. -/
theorem getSchema_globals_after (ToLower : Str → Str) (schema_location : Str) (g : Globals)
    (kind apiVersion : Str) :
    ∃ (url : Str) (g' : Globals),
      getSchema ToLower schema_location g kind apiVersion = .ok (url, g') ∧
      g'.SchemaLocation = g.SchemaLocation ∧
      (g.Version ≠ [] → g'.Version = g.Version) ∧
      (g.Version = [] → g'.Version = "master".toList) ∧
      ∀ kind₂ apiVersion₂ : Str,
        ∃ url₂, getSchema ToLower schema_location g' kind₂ apiVersion₂ = .ok (url₂, g') := by
  have hg' : (if g.Version = [] then { g with Version := "master".toList } else g).Version
      ≠ [] := by
    by_cases hv : g.Version = []
    · rw [if_pos hv]
      exact List.cons_ne_nil _ _
    · rw [if_neg hv]
      exact hv
  refine ⟨_, if g.Version = [] then { g with Version := "master".toList } else g,
    getSchema_ok ToLower schema_location g kind apiVersion, ?_, ?_, ?_, ?_⟩
  · by_cases hv : g.Version = []
    · rw [if_pos hv]
    · rw [if_neg hv]
  · intro hv
    rw [if_neg hv]
  · intro hv
    rw [if_pos hv]
  · intro kind₂ apiVersion₂
    have h₂ := getSchema_ok ToLower schema_location
      (if g.Version = [] then { g with Version := "master".toList } else g) kind₂ apiVersion₂
    rw [if_neg hg'] at h₂
    exact ⟨_, h₂⟩

/-- C20: for an `apiVersion` with two or more slashes, `getSchema` does not fail, and its
result is the result for the first two parts alone. -/
theorem getSchema_ignores_third_part (ToLower : Str → Str) (schema_location : Str)
    (g : Globals) (kind a b rest : Str) (ha : '/' ∉ a) (hb : '/' ∉ b) :
    getSchema ToLower schema_location g kind
        (a ++ "/".toList ++ b ++ "/".toList ++ rest)
      = getSchema ToLower schema_location g kind (a ++ "/".toList ++ b) ∧
    ∃ url g', getSchema ToLower schema_location g kind
        (a ++ "/".toList ++ b ++ "/".toList ++ rest) = .ok (url, g') := by
  have h₂ : Split (a ++ "/".toList ++ b) "/".toList = [a, b] := Split_group_version a b ha hb
  have h₃ : Split (a ++ "/".toList ++ b ++ "/".toList ++ rest) "/".toList
      = a :: b :: Split rest "/".toList := by
    show Split (a ++ ['/'] ++ b ++ ['/'] ++ rest) ['/'] = a :: b :: Split rest ['/']
    have e : a ++ ['/'] ++ b ++ ['/'] ++ rest = a ++ '/' :: (b ++ '/' :: rest) := by
      simp only [List.append_assoc, List.singleton_append, List.cons_append, List.nil_append]
    rw [e, Split_single_append '/' _ a ha, Split_single_append '/' rest b hb]
  have hlen : ¬ (a :: b :: Split rest "/".toList).length = 1 := by simp
  have hlen₂ : ¬ ([a, b] : List Str).length = 1 := by simp
  constructor
  · rw [getSchema_ok, getSchema_ok, h₂, h₃, if_neg hlen, if_neg hlen₂]
    rfl
  · exact ⟨_, _, getSchema_ok _ _ _ _ _⟩

/-- C20 (witness): `a/b/c` gives what `a/b` gives. -/
theorem getSchema_ignores_third_part_witness :
    '/' ∉ "a".toList ∧ '/' ∉ "b".toList ∧
    getSchema asciiToLower [] { Version := [], SchemaLocation := [] } "Service".toList
        ("a".toList ++ "/".toList ++ "b".toList ++ "/".toList ++ "c".toList)
      = getSchema asciiToLower [] { Version := [], SchemaLocation := [] } "Service".toList
        ("a".toList ++ "/".toList ++ "b".toList) :=
  ⟨by decide, by decide,
    (getSchema_ignores_third_part asciiToLower [] { Version := [], SchemaLocation := [] }
      "Service".toList "a".toList "b".toList "c".toList (by decide) (by decide)).1⟩

/-! ## Facts about the command line -/

/-- The log only grows under `logResults`. -/
theorem logResults_log_extends :
    ∀ (results : List ValidationResult) (success : Bool) (log : List LogLine),
      log <+: (logResults results success log).2
  | [], _, log => List.prefix_refl log
  | r :: rs, s, log => by
    simp only [logResults]
    split
    · exact (List.prefix_append _ _).trans
        ((List.prefix_append _ _).trans (logResults_log_extends rs _ _))
    · split
      · exact (List.prefix_append _ _).trans (logResults_log_extends rs _ _)
      · exact (List.prefix_append _ _).trans (logResults_log_extends rs _ _)

/-- Every result handed to `logResults` is reported: as invalid with each of its violations,
as empty, or as valid. -/
theorem logResults_reports :
    ∀ (results : List ValidationResult) (success : Bool) (log : List LogLine),
      ∀ r ∈ results,
        (r.Errors ≠ [] →
          LogLine.invalid r.FileName r.Kind ∈ (logResults results success log).2 ∧
          ∀ d ∈ r.Errors, LogLine.violation d ∈ (logResults results success log).2) ∧
        (r.Errors = [] → r.Kind = [] →
          LogLine.empty r.FileName ∈ (logResults results success log).2) ∧
        (r.Errors = [] → r.Kind ≠ [] →
          LogLine.valid r.FileName r.Kind ∈ (logResults results success log).2)
  | [], _, _, r, hr => by cases hr
  | x :: rs, s, log, r, hr => by
    rcases List.mem_cons.1 hr with rfl | hr
    · simp only [logResults]
      by_cases he : r.Errors.length > 0
      · have hne : r.Errors ≠ [] := List.length_pos.1 he
        rw [if_pos he]
        have hsub := (logResults_log_extends rs false
          (log ++ [LogLine.invalid r.FileName r.Kind] ++ r.Errors.map LogLine.violation)).subset
        refine ⟨fun _ => ⟨hsub (by simp), fun d hd => hsub ?_⟩, fun h => absurd h hne,
          fun h => absurd h hne⟩
        exact List.mem_append_right _ (List.mem_map_of_mem _ hd)
      · have hnil : r.Errors = [] := by
          cases h : r.Errors with
          | nil => rfl
          | cons a l => rw [h] at he; simp at he
        rw [if_neg he]
        by_cases hk : r.Kind = []
        · rw [if_pos hk]
          have hsub := (logResults_log_extends rs s (log ++ [LogLine.empty r.FileName])).subset
          exact ⟨fun h => absurd hnil h, fun _ _ => hsub (by simp), fun _ h => absurd hk h⟩
        · rw [if_neg hk]
          have hsub :=
            (logResults_log_extends rs s (log ++ [LogLine.valid r.FileName r.Kind])).subset
          exact ⟨fun h => absurd hnil h, fun _ h => absurd h hk, fun _ _ => hsub (by simp)⟩
    · simp only [logResults]
      split
      · exact logResults_reports rs _ _ r hr
      · split
        · exact logResults_reports rs _ _ r hr
        · exact logResults_reports rs _ _ r hr

/-- The flag `success` stays the negation of "the log reports a failure" under `logResults`. -/
theorem logResults_success :
    ∀ (results : List ValidationResult) (success : Bool) (log : List LogLine),
      success = !(log.any LogLine.isFailure) →
      (logResults results success log).1
        = !((logResults results success log).2.any LogLine.isFailure)
  | [], _, _, h => h
  | r :: rs, s, log, h => by
    simp only [logResults]
    split
    · exact logResults_success rs _ _ (by simp [LogLine.isFailure])
    · split
      · exact logResults_success rs _ _ (by simp [LogLine.isFailure, h])
      · exact logResults_success rs _ _ (by simp [LogLine.isFailure, h])

/-- The loop over `before ++ after` is the loop over `before`, and, when that has not exited,
the loop over `after` from where it stands. -/
theorem runFilesLoop_append {W : Type} (env : Env W) (ReadFile : Str → Option Bytes)
    (after : List Str) :
    ∀ (before : List Str) (st : State W) (success : Bool) (log : List LogLine),
      runFilesLoop env ReadFile (before ++ after) st success log =
        match runFilesLoop env ReadFile before st success log with
        | .ok ((none, success₁, log₁), st₁) => runFilesLoop env ReadFile after st₁ success₁ log₁
        | other => other
  | [], st, success, log => by simp [runFilesLoop]
  | f :: fs, st, success, log => by
    simp only [List.cons_append, runFilesLoop]
    cases ReadFile f with
    | none => rfl
    | some config =>
      simp only
      cases Validate env st config f with
      | error p => rfl
      | ok out =>
        obtain ⟨⟨results, err⟩, st₁⟩ := out
        cases err with
        | some e => rfl
        | none => exact runFilesLoop_append env ReadFile after fs st₁ _ _

/-- What the loop keeps true: while it has not exited, `success` is the negation of "the log
reports a failure"; when it exits, the code is 1 and the log reports a failure. -/
theorem runFilesLoop_invariant {W : Type} (env : Env W) (ReadFile : Str → Option Bytes) :
    ∀ (args : List Str) (st st' : State W) (success success' : Bool) (log log' : List LogLine)
      (exit : Option Nat),
      runFilesLoop env ReadFile args st success log = .ok ((exit, success', log'), st') →
      success = !(log.any LogLine.isFailure) →
      (exit = none → success' = !(log'.any LogLine.isFailure)) ∧
      (∀ code, exit = some code → code = 1 ∧ log'.any LogLine.isFailure = true)
  | [], st, st', s, s', log, log', exit, h, hs => by
    simp only [runFilesLoop, Except.ok.injEq, Prod.mk.injEq] at h
    obtain ⟨⟨rfl, rfl, rfl⟩, _⟩ := h
    exact ⟨fun _ => hs, fun code hc => (by cases hc)⟩
  | f :: fs, st, st', s, s', log, log', exit, h, hs => by
    simp only [runFilesLoop] at h
    cases hr : ReadFile f with
    | none =>
      rw [hr] at h
      simp only [Except.ok.injEq, Prod.mk.injEq] at h
      obtain ⟨⟨rfl, rfl, rfl⟩, _⟩ := h
      refine ⟨fun hc => (by cases hc), fun code hc => ?_⟩
      cases hc
      exact ⟨rfl, by simp [LogLine.isFailure]⟩
    | some config =>
      rw [hr] at h
      simp only at h
      cases hv : Validate env st config f with
      | error p => rw [hv] at h; cases h
      | ok out =>
        obtain ⟨⟨results, err⟩, st₁⟩ := out
        rw [hv] at h
        cases err with
        | some e =>
          simp only [Except.ok.injEq, Prod.mk.injEq] at h
          obtain ⟨⟨rfl, rfl, rfl⟩, _⟩ := h
          refine ⟨fun hc => (by cases hc), fun code hc => ?_⟩
          cases hc
          exact ⟨rfl, by simp [LogLine.isFailure]⟩
        | none =>
          simp only at h
          exact runFilesLoop_invariant env ReadFile fs st₁ st' _ s' _ log' exit h
            (logResults_success results s log hs)

/-- The log only grows along the loop. -/
theorem runFilesLoop_log_extends {W : Type} (env : Env W) (ReadFile : Str → Option Bytes) :
    ∀ (args : List Str) (st st' : State W) (success success' : Bool) (log log' : List LogLine)
      (exit : Option Nat),
      runFilesLoop env ReadFile args st success log = .ok ((exit, success', log'), st') →
      log <+: log'
  | [], st, st', s, s', log, log', exit, h => by
    simp only [runFilesLoop, Except.ok.injEq, Prod.mk.injEq] at h
    obtain ⟨⟨_, _, rfl⟩, _⟩ := h
    exact List.prefix_refl _
  | f :: fs, st, st', s, s', log, log', exit, h => by
    simp only [runFilesLoop] at h
    cases hr : ReadFile f with
    | none =>
      rw [hr] at h
      simp only [Except.ok.injEq, Prod.mk.injEq] at h
      obtain ⟨⟨_, _, rfl⟩, _⟩ := h
      exact List.prefix_append _ _
    | some config =>
      rw [hr] at h
      simp only at h
      cases hv : Validate env st config f with
      | error p => rw [hv] at h; cases h
      | ok out =>
        obtain ⟨⟨results, err⟩, st₁⟩ := out
        rw [hv] at h
        cases err with
        | some e =>
          simp only [Except.ok.injEq, Prod.mk.injEq] at h
          obtain ⟨⟨_, _, rfl⟩, _⟩ := h
          exact List.prefix_append _ _
        | none =>
          simp only at h
          exact (logResults_log_extends results s log).trans
            (runFilesLoop_log_extends env ReadFile fs st₁ st' _ s' _ log' exit h)

/-- The log of a run that returns is the log of its loop. -/
theorem runFiles_log_of_loop {W : Type} (env : Env W) (ReadFile : Str → Option Bytes)
    (args : List Str) (st st' : State W) (code : Nat) (log : List LogLine) (hargs : args ≠ [])
    (h : runFiles env ReadFile args st = .ok ((code, log), st')) :
    ∃ exit success, runFilesLoop env ReadFile args st true [] = .ok ((exit, success, log), st')
      ∧ code = (match exit with
        | some c => c
        | none => if !success then 1 else 0) := by
  have hlen : ¬ args.length < 1 := by
    cases args with
    | nil => exact absurd rfl hargs
    | cons a l => simp
  unfold runFiles at h
  rw [if_neg hlen] at h
  cases hl : runFilesLoop env ReadFile args st true [] with
  | error p => rw [hl] at h; cases h
  | ok out =>
    obtain ⟨⟨exit, success, log₁⟩, st₁⟩ := out
    rw [hl] at h
    cases exit with
    | some c =>
      simp only [Except.ok.injEq, Prod.mk.injEq] at h
      obtain ⟨⟨rfl, rfl⟩, rfl⟩ := h
      exact ⟨_, _, rfl, rfl⟩
    | none =>
      simp only at h
      cases success with
      | true =>
        simp only [Bool.not_true, Bool.false_eq_true, if_false, Except.ok.injEq,
          Prod.mk.injEq] at h
        obtain ⟨⟨rfl, rfl⟩, rfl⟩ := h
        exact ⟨_, _, rfl, rfl⟩
      | false =>
        simp only [Bool.not_false, if_true, Except.ok.injEq, Prod.mk.injEq] at h
        obtain ⟨⟨rfl, rfl⟩, rfl⟩ := h
        exact ⟨_, _, rfl, rfl⟩

/-- C18 (counterexample): in the run over `bad.yaml` and `good.yaml`, the first document of
`bad.yaml` lacks `kind`. The run ends with status 1 after logging the combined error alone:
the valid second document of `bad.yaml` is not reported, and neither is `good.yaml`, which a
run of its own reports as valid. -/
theorem runFiles_short_circuit_counterexample :
    (Validate sampleEnv exampleState
        (bytesOf "apiVersion: v1\n---\nkind: Service\napiVersion: v1")
        "bad.yaml".toList).map (fun out => out.1)
      = .ok ([{ FileName := "bad.yaml".toList, Kind := [], APIVersion := [], Errors := [] },
              { FileName := "bad.yaml".toList, Kind := "Service".toList,
                APIVersion := "v1".toList, Errors := [] }],
            some { Errors := [{ msg := "Missing kind key".toList }] }) ∧
    (runFiles sampleEnv sampleReadFile ["bad.yaml".toList, "good.yaml".toList]
        exampleState).map (fun out => out.1)
      = .ok (1, [LogLine.error { Errors := [{ msg := "Missing kind key".toList }] }]) ∧
    LogLine.valid "bad.yaml".toList "Service".toList
      ∉ [LogLine.error { Errors := [{ msg := "Missing kind key".toList }] }] ∧
    LogLine.valid "good.yaml".toList "Service".toList
      ∉ [LogLine.error { Errors := [{ msg := "Missing kind key".toList }] }] ∧
    (runFiles sampleEnv sampleReadFile ["good.yaml".toList] exampleState).map
        (fun out => out.1)
      = .ok (0, [LogLine.valid "good.yaml".toList "Service".toList]) :=
  ⟨rfl, rfl, by decide, by decide, rfl⟩

/-- C18 (amended): the files are handled in order. A file for which `Validate` returns a nil
combined error has every one of its results reported, and the run goes on with the next file.
The first file in which some document fails to process ends the run at once with exit status
1: its combined error is logged, none of its results is reported, no later file is read. And
the exit status of a run is 0 or 1, and non-zero exactly when the log reports a processing
error or a result with violations. -/
theorem runFiles_stops_at_first_failure {W : Type} (env : Env W)
    (ReadFile : Str → Option Bytes) :
    (∀ (before after : List Str) (fileName : Str) (st st₁ st₂ : State W) (success₁ : Bool)
      (log₁ : List LogLine) (config : Bytes) (results : List ValidationResult)
      (err : MultiError),
      runFilesLoop env ReadFile before st true [] = .ok ((none, success₁, log₁), st₁) →
      ReadFile fileName = some config →
      Validate env st₁ config fileName = .ok ((results, some err), st₂) →
      runFiles env ReadFile (before ++ fileName :: after) st
        = .ok ((1, log₁ ++ [LogLine.error err]), st₂)) ∧
    (∀ (before after : List Str) (fileName : Str) (st st₁ st₂ : State W) (success₁ : Bool)
      (log₁ : List LogLine) (config : Bytes) (results : List ValidationResult),
      runFilesLoop env ReadFile before st true [] = .ok ((none, success₁, log₁), st₁) →
      ReadFile fileName = some config →
      Validate env st₁ config fileName = .ok ((results, none), st₂) →
      runFilesLoop env ReadFile (before ++ fileName :: after) st true [] =
        runFilesLoop env ReadFile after st₂ (logResults results success₁ log₁).1
          (logResults results success₁ log₁).2 ∧
      ∀ (code : Nat) (log : List LogLine) (st' : State W),
        runFiles env ReadFile (before ++ fileName :: after) st = .ok ((code, log), st') →
        ∀ r ∈ results,
          (r.Errors ≠ [] → LogLine.invalid r.FileName r.Kind ∈ log ∧
            ∀ d ∈ r.Errors, LogLine.violation d ∈ log) ∧
          (r.Errors = [] → r.Kind = [] → LogLine.empty r.FileName ∈ log) ∧
          (r.Errors = [] → r.Kind ≠ [] → LogLine.valid r.FileName r.Kind ∈ log)) ∧
    (∀ (args : List Str) (st st' : State W) (code : Nat) (log : List LogLine),
      runFiles env ReadFile args st = .ok ((code, log), st') →
      (code = 0 ∨ code = 1) ∧
      (code ≠ 0 ↔ ∃ line ∈ log, LogLine.isFailure line = true)) := by
  have step : ∀ (before after : List Str) (fileName : Str) (st st₁ : State W)
      (success₁ : Bool) (log₁ : List LogLine),
      runFilesLoop env ReadFile before st true [] = .ok ((none, success₁, log₁), st₁) →
      runFilesLoop env ReadFile (before ++ fileName :: after) st true [] =
        runFilesLoop env ReadFile (fileName :: after) st₁ success₁ log₁ := by
    intro before after fileName st st₁ success₁ log₁ hb
    rw [runFilesLoop_append, hb]
  have hlen : ∀ (before after : List Str) (fileName : Str),
      ¬ (before ++ fileName :: after).length < 1 := by
    intro before after fileName
    simp
  refine ⟨?_, ?_, ?_⟩
  · intro before after fileName st st₁ st₂ success₁ log₁ config results err hb hr hv
    have hloop := step before after fileName st st₁ success₁ log₁ hb
    simp only [runFilesLoop, hr, hv] at hloop
    unfold runFiles
    rw [if_neg (hlen before after fileName), hloop]
  · intro before after fileName st st₁ st₂ success₁ log₁ config results hb hr hv
    have hloop := step before after fileName st st₁ success₁ log₁ hb
    simp only [runFilesLoop, hr, hv] at hloop
    refine ⟨hloop, ?_⟩
    intro code log st' hrun r hmem
    obtain ⟨exit, success, hl, _⟩ := runFiles_log_of_loop env ReadFile _ st st' code log
      (by simp) hrun
    rw [hloop] at hl
    have hsub := (runFilesLoop_log_extends env ReadFile after st₂ st' _ success _ log exit
      hl).subset
    obtain ⟨h₁, h₂, h₃⟩ := logResults_reports results success₁ log₁ r hmem
    exact ⟨fun hne => ⟨hsub (h₁ hne).1, fun d hd => hsub ((h₁ hne).2 d hd)⟩,
      fun he hk => hsub (h₂ he hk), fun he hk => hsub (h₃ he hk)⟩
  · intro args st st' code log hrun
    cases args with
    | nil =>
      simp only [runFiles, List.length_nil, Nat.lt_one_iff, if_true, Except.ok.injEq,
        Prod.mk.injEq] at hrun
      obtain ⟨⟨rfl, rfl⟩, _⟩ := hrun
      exact ⟨Or.inr rfl, fun _ => ⟨_, List.mem_singleton.2 rfl, rfl⟩, fun _ => by decide⟩
    | cons a l =>
      obtain ⟨exit, success, hl, hcode⟩ := runFiles_log_of_loop env ReadFile _ st st' code log
        (by simp) hrun
      obtain ⟨i₁, i₂⟩ := runFilesLoop_invariant env ReadFile _ st st' true success [] log exit
        hl rfl
      cases exit with
      | some c =>
        obtain ⟨hc, hany⟩ := i₂ c rfl
        simp only at hcode
        subst hcode
        subst hc
        refine ⟨Or.inr rfl, fun _ => ?_, fun _ => by decide⟩
        obtain ⟨line, hline, hf⟩ := List.any_eq_true.1 hany
        exact ⟨line, hline, hf⟩
      | none =>
        have hs := i₁ rfl
        simp only at hcode
        cases success with
        | true =>
          simp only [Bool.not_true, Bool.false_eq_true, if_false] at hcode
          subst hcode
          refine ⟨Or.inl rfl, fun h => absurd rfl h, ?_⟩
          rintro ⟨line, hline, hf⟩
          have : log.any LogLine.isFailure = true := List.any_eq_true.2 ⟨line, hline, hf⟩
          rw [this] at hs
          cases hs
        | false =>
          simp only [Bool.not_false, if_true] at hcode
          subst hcode
          refine ⟨Or.inr rfl, fun _ => ?_, fun _ => by decide⟩
          have hany : log.any LogLine.isFailure = true := by
            cases h : log.any LogLine.isFailure with
            | true => rfl
            | false => rw [h] at hs; cases hs
          obtain ⟨line, hline, hf⟩ := List.any_eq_true.1 hany
          exact ⟨line, hline, hf⟩

/-- C18 (witness): `good.yaml`, then `pod.yaml` with two violations, then `good.yaml` again:
all three are reported, and the exit status is 1. -/
theorem runFiles_stops_at_first_failure_witness :
    (runFiles sampleEnv sampleReadFile
        ["good.yaml".toList, "pod.yaml".toList, "good.yaml".toList]
        exampleState).map (fun out => out.1)
      = .ok (1, [LogLine.valid "good.yaml".toList "Service".toList,
          LogLine.invalid "pod.yaml".toList "Pod".toList,
          LogLine.violation { description := "metadata: metadata is required".toList },
          LogLine.violation { description := "spec: spec is required".toList },
          LogLine.valid "good.yaml".toList "Service".toList]) ∧
    ∀ (st' : State Nat) (code : Nat) (log : List LogLine),
      runFiles sampleEnv sampleReadFile
          ["good.yaml".toList, "pod.yaml".toList, "good.yaml".toList] exampleState
        = .ok ((code, log), st') →
      (code = 0 ∨ code = 1) ∧ (code ≠ 0 ↔ ∃ line ∈ log, LogLine.isFailure line = true) :=
  ⟨rfl, fun st' code log h =>
    (runFiles_stops_at_first_failure sampleEnv sampleReadFile).2.2 _ exampleState st' code log
      h⟩

end Kubeschema
